import Mathlib

/-!
# paged_vector (src/paged_vector.h)

A shallow embedding of the `paged_vector<T>` container, and the properties of it that the
specification states.

Modelling conventions.

* `size_t` is a natural number below `2 ^ 64`; every arithmetic step that can wrap in the
  source is reduced modulo `size_mod`.  An `int` loop counter (`auto i = 0`, `int i`) is
  32 bits wide; a loop that would increment it past `int_max` is undefined.
* The free store is an explicit heap of pages.  A page pointer is `Option Nat`
  (`none` is `nullptr`, `some a` is the address `a`); `new page` returns a fresh address and
  `delete` releases the cell.  Allocation never fails in the model.
* The page table `page** page_array` is kept by value as the list of its entries.  The source
  only ever allocates a table with at least one entry, so the empty list stands for `nullptr`.
* An operation returns `none` exactly where the source has undefined behaviour: a read of the
  table outside its entries, a dereference of a null or released page pointer, a second
  `delete` of the same page, an overflowing `int` counter.
* `T` is a plain value type: `~T()` does not change what a slot holds, and `new page`
  gives a page whose 64 slots hold `default`.
* Several containers live in one heap (`System`), so that copies and moves between them
  are operations of the model.
-/

namespace PagedVector

/-- Source: `static constexpr int bits = 6;` -/
abbrev bits : Nat := 6

/-- Source: `static constexpr int page_size = 1 << bits;` -/
abbrev page_size : Nat := 1 <<< bits

/-- Source: `static constexpr size_t mask = (page_size - 1);` -/
abbrev mask : Nat := page_size - 1

/-- The number of values of `size_t` (64-bit). -/
abbrev size_mod : Nat := 2 ^ 64

/-- The largest value of `int` (32-bit). -/
abbrev int_max : Nat := 2 ^ 31 - 1

/-- The largest size whose pages an `int` can count: `int_max` pages. -/
abbrev max_size : Nat := int_max * page_size

/-- Source: `struct page { T elements[page_size]; };` -/
structure page (T : Type) where
  elements : Fin page_size → T

/-- The free store of pages: the cell at address `a` is `some pg` while the page is allocated
and `none` once it has been released. -/
abbrev Heap (T : Type) := List (Option (page T))

/-- The data members `last_index`, `page_array`, `page_capacity`. -/
structure paged_vector where
  last_index : Nat
  page_array : List (Option Nat)
  page_capacity : Nat
deriving DecidableEq, Repr

/-- Source: `paged_vector() noexcept = default;` with the member initialisers
`last_index{0}`, `page_array{nullptr}`, `page_capacity{0}`. -/
def paged_vector.empty : paged_vector := ⟨0, [], 0⟩

/-- The page stored at address `a`, if that page is allocated. -/
def Heap.read {T : Type} (h : Heap T) (a : Nat) : Option (page T) :=
  match h[a]? with
  | some (some pg) => some pg
  | _ => none

/-- A counted loop `for (i = start; i < start + count; i++) body`, stopping at the first
undefined step. -/
def for_range {σ : Type} (body : σ → Nat → Option σ) : σ → Nat → Nat → Option σ
  | s, _, 0 => some s
  | s, i, k + 1 => (body s i).bind fun s1 => for_range body s1 (i + 1) k

/-- The slot `index & mask` inside a page. -/
def offset (index : Nat) : Fin page_size :=
  ⟨index &&& mask, Nat.lt_succ_of_le Nat.and_le_right⟩

/-- Source: `operator[]`, the lvalue `page_array[index >> bits]->elements[index & mask]`,
given as the address of the page and the slot inside it. -/
def subscript {T : Type} (h : Heap T) (pv : paged_vector) (index : Nat) :
    Option (Nat × Fin page_size) :=
  match pv.page_array[index >>> bits]? with
  | some (some a) =>
    match Heap.read h a with
    | some _ => some (a, offset index)
    | none => none
  | _ => none

/-- Reading through `operator[]`: the value of `(*this)[index]`. -/
def load {T : Type} (h : Heap T) (pv : paged_vector) (index : Nat) : Option T :=
  match subscript h pv index with
  | some (a, off) => (Heap.read h a).map fun pg => pg.elements off
  | none => none

/-- Writing through `operator[]`: `(*this)[index] = value`. -/
def store {T : Type} (h : Heap T) (pv : paged_vector) (index : Nat) (value : T) :
    Option (Heap T) :=
  match subscript h pv index with
  | some (a, off) =>
    (Heap.read h a).map fun pg => h.set a (some ⟨Function.update pg.elements off value⟩)
  | none => none

/-- Source: `size()`. -/
def size (pv : paged_vector) : Nat := pv.last_index

/-- Source: `page_divide_ceil`, `(idx + page_size - 1) / page_size` in `size_t`. -/
def page_divide_ceil (idx : Nat) : Nat :=
  ((idx + page_size - 1) % size_mod) / page_size

/-- Source: `num_pages()`, `last_index >> bits`. -/
def num_pages (pv : paged_vector) : Nat := pv.last_index >>> bits

/-- Source: `capacity()`, `num_pages() * page_size`. -/
def capacity (pv : paged_vector) : Nat := (num_pages pv * page_size) % size_mod

/-- Source: `destroy_page`, `delete page_array[index]; page_array[index] = nullptr;`. -/
def destroy_page {T : Type} (s : Heap T × paged_vector) (index : Nat) :
    Option (Heap T × paged_vector) :=
  match s.2.page_array[index]? with
  | none => none
  | some none => some (s.1, { s.2 with page_array := s.2.page_array.set index none })
  | some (some a) =>
    match Heap.read s.1 a with
    | none => none
    | some _ =>
      some (s.1.set a none, { s.2 with page_array := s.2.page_array.set index none })

/-- Source: `create_page`, `page_array[index] = new page;`. -/
def create_page {T : Type} [Inhabited T] (s : Heap T × paged_vector) (index : Nat) :
    Option (Heap T × paged_vector) :=
  if index < s.2.page_array.length then
    some (s.1 ++ [some ⟨fun _ => default⟩],
      { s.2 with page_array := s.2.page_array.set index (some s.1.length) })
  else none

/-- Source: `delete_range`, `for (auto i = start; i < end; i++) (*this)[i].~T();`.
The destructor call leaves the slot as it is; forming `(*this)[i]` must be defined. -/
def delete_range {T : Type} (h : Heap T) (pv : paged_vector) (start stop : Nat) :
    Option Unit :=
  for_range (fun _ i => (subscript h pv i).map fun _ => ()) () start (stop - start)

/-- Source: `init_range`, `for (auto i = start; i < end; i++) (*this)[i] = value;`. -/
def init_range {T : Type} (h : Heap T) (pv : paged_vector) (start stop : Nat) (value : T) :
    Option (Heap T) :=
  for_range (fun h1 i => store h1 pv i value) h start (stop - start)

/-- The loop `for (auto i = 0; i < page_capacity; i++) new_array[i] = page_array[i];` of
`resize_pages`.  The counter is an `int`: with more than `int_max` pages its increment
overflows, which is undefined. -/
def copy_handles (page_array : List (Option Nat)) (new_array : List (Option Nat))
    (page_capacity : Nat) : Option (List (Option Nat)) :=
  if page_capacity > int_max then none
  else for_range (fun arr i =>
    match page_array[i]? with
    | none => none
    | some p => if i < arr.length then some (arr.set i p) else none) new_array 0 page_capacity

/-- Source: `resize_pages`. -/
def resize_pages {T : Type} [Inhabited T] (h : Heap T) (pv : paged_vector) (new_pages : Nat) :
    Option (Heap T × paged_vector) :=
  if new_pages < pv.page_capacity then
    if new_pages < num_pages pv then
      for_range destroy_page (h, pv) new_pages (num_pages pv - new_pages)
    else some (h, pv)
  else if new_pages > pv.page_capacity then
    match copy_handles pv.page_array (List.replicate new_pages none) pv.page_capacity with
    | none => none
    | some new_array =>
      match for_range create_page (h, { pv with page_array := new_array })
          pv.page_capacity (new_pages - pv.page_capacity) with
      | none => none
      | some (h1, pv1) => some (h1, { pv1 with page_capacity := new_pages })
  else some (h, pv)

/-- Source: `reserve`. -/
def reserve {T : Type} [Inhabited T] (h : Heap T) (pv : paged_vector) (size : Nat) :
    Option (Heap T × paged_vector) :=
  if size > pv.last_index then resize_pages h pv (page_divide_ceil size) else some (h, pv)

/-- Source: `resize(size_type size, const value_type& value)`. -/
def resize {T : Type} [Inhabited T] (h : Heap T) (pv : paged_vector) (size : Nat) (value : T) :
    Option (Heap T × paged_vector) :=
  let old_size := pv.last_index
  let new_pages := page_divide_ceil size
  match (if size < pv.last_index then delete_range h pv size pv.last_index else some ()) with
  | none => none
  | some _ =>
    match resize_pages h pv new_pages with
    | none => none
    | some (h1, pv1) =>
      match (if size > old_size then init_range h1 pv1 old_size size value else some h1) with
      | none => none
      | some h2 => some (h2, { pv1 with last_index := size })

/-- Source: `resize(size_type size)`, `resize(size, value_type{})`. -/
def resize_default {T : Type} [Inhabited T] (h : Heap T) (pv : paged_vector) (size : Nat) :
    Option (Heap T × paged_vector) :=
  resize h pv size default

/-- Source: `push_back`. -/
def push_back {T : Type} [Inhabited T] (h : Heap T) (pv : paged_vector) (value : T) :
    Option (Heap T × paged_vector) :=
  let idx := pv.last_index
  match resize_default h pv ((pv.last_index + 1) % size_mod) with
  | none => none
  | some (h1, pv1) => (store h1 pv1 idx value).map fun h2 => (h2, pv1)

/-- Source: `pop_back`, `resize(last_index - 1)` in `size_t`. -/
def pop_back {T : Type} [Inhabited T] (h : Heap T) (pv : paged_vector) :
    Option (Heap T × paged_vector) :=
  resize_default h pv ((pv.last_index + size_mod - 1) % size_mod)

/-- Source: `back`, the lvalue `operator[](last_index - 1)` with the index computed in
`size_t`. -/
def back {T : Type} (h : Heap T) (pv : paged_vector) : Option (Nat × Fin page_size) :=
  subscript h pv ((pv.last_index + size_mod - 1) % size_mod)

/-- Source: `clear`.  The counter of its loop is an `int`, as in `copy_handles`. -/
def clear {T : Type} (h : Heap T) (pv : paged_vector) : Option (Heap T × paged_vector) :=
  match (if pv.page_array ≠ [] then
           if pv.page_capacity > int_max then none
           else for_range destroy_page (h, pv) 0 pv.page_capacity
         else some (h, pv)) with
  | none => none
  | some (h1, _) => some (h1, ⟨0, [], 0⟩)

/-- The loop `for (int i = 0; i < other.last_index; i++) (*this)[i] = other[i];` of the copy
constructor and of copy assignment.  The counter is an `int`: with more than `int_max`
elements its increment overflows, which is undefined. -/
def assign_elements {T : Type} (h : Heap T) (this other : paged_vector) : Option (Heap T) :=
  if other.last_index > int_max then none
  else for_range (fun h1 i => (load h1 other i).bind fun x => store h1 this i x)
    h 0 other.last_index

/-- Source: `paged_vector& operator=(const paged_vector& other)` for `this` and `other` two
different objects; `other` is left as it is. -/
def copy_assign {T : Type} [Inhabited T] (h : Heap T) (this other : paged_vector) :
    Option (Heap T × paged_vector) :=
  match resize_default h this other.last_index with
  | none => none
  | some (h1, this1) => (assign_elements h1 this1 other).map fun h2 => (h2, this1)

/-- Source: `paged_vector(const paged_vector& other)`: the members start from their default
initialisers and the body is that of copy assignment. -/
def copy_construct {T : Type} [Inhabited T] (h : Heap T) (other : paged_vector) :
    Option (Heap T × paged_vector) :=
  copy_assign h paged_vector.empty other

/-- Source: `paged_vector(paged_vector&& other)`: the new object and what is left of
`other`. -/
def move_construct (other : paged_vector) : paged_vector × paged_vector :=
  (⟨other.last_index, other.page_array, other.page_capacity⟩, ⟨0, [], 0⟩)

/-- Source: `paged_vector& operator=(paged_vector&& other)` for `this` and `other` two
different objects: the heap, the new `this` and what is left of `other`. -/
def move_assign {T : Type} (h : Heap T) (this other : paged_vector) :
    Option (Heap T × paged_vector × paged_vector) :=
  match clear h this with
  | none => none
  | some (h1, _) =>
    some (h1, ⟨other.last_index, other.page_array, other.page_capacity⟩, ⟨0, [], 0⟩)

/-- A program state: the heap and the `paged_vector` objects living in it. -/
structure System (T : Type) where
  heap : Heap T
  objs : List paged_vector

/-- The public operations, applied to the objects of a `System` by position. -/
inductive Op (T : Type) where
  | construct : Op T
  | copy_construct (src : Nat) : Op T
  | move_construct (src : Nat) : Op T
  | copy_assign (dst src : Nat) : Op T
  | move_assign (dst src : Nat) : Op T
  | reserve (i n : Nat) : Op T
  | resize (i n : Nat) (v : T) : Op T
  | push_back (i : Nat) (v : T) : Op T
  | pop_back (i : Nat) : Op T
  | clear (i : Nat) : Op T
  | assign (i idx : Nat) (v : T) : Op T

/-- Running one heap-and-object operation on the object at position `i`. -/
def System.on {T : Type} (s : System T) (i : Nat)
    (f : Heap T → paged_vector → Option (Heap T × paged_vector)) : Option (System T) :=
  match s.objs[i]? with
  | none => none
  | some pv => (f s.heap pv).map fun r => ⟨r.1, s.objs.set i r.2⟩

/-- One public operation.  Assignments go through the object list one member function at a
time, so that `dst = src` (self-assignment) runs what the source runs. -/
def System.step {T : Type} [Inhabited T] (s : System T) : Op T → Option (System T)
  | .construct => some ⟨s.heap, s.objs ++ [paged_vector.empty]⟩
  | .copy_construct src =>
    match s.objs[src]? with
    | none => none
    | some other => (copy_construct s.heap other).map fun r => ⟨r.1, s.objs ++ [r.2]⟩
  | .move_construct src =>
    match s.objs[src]? with
    | none => none
    | some other =>
      some ⟨s.heap, s.objs.set src (move_construct other).2 ++ [(move_construct other).1]⟩
  | .copy_assign dst src =>
    match s.objs[src]? with
    | none => none
    | some other =>
      match s.on dst (fun h this => resize_default h this other.last_index) with
      | none => none
      | some s1 =>
        match s1.objs[dst]?, s1.objs[src]? with
        | some this1, some other1 =>
          (assign_elements s1.heap this1 other1).map fun h2 => ⟨h2, s1.objs⟩
        | _, _ => none
  | .move_assign dst src =>
    match s.on dst clear with
    | none => none
    | some s1 =>
      match s1.objs[src]? with
      | none => none
      | some other =>
        some ⟨s1.heap, (s1.objs.set dst (move_construct other).1).set src
          (move_construct other).2⟩
  | .reserve i n => s.on i (fun h pv => reserve h pv n)
  | .resize i n v => s.on i (fun h pv => resize h pv n v)
  | .push_back i v => s.on i (fun h pv => push_back h pv v)
  | .pop_back i => s.on i pop_back
  | .clear i => s.on i clear
  | .assign i idx v => s.on i (fun h pv => (store h pv idx v).map fun h1 => (h1, pv))

/-- The caller's side of the contract: a requested size `n` has `n + page_size - 1`
representable in `size_t`, `pop_back` needs a non-empty container, and an element is
assigned only below `size()`. -/
def System.pre {T : Type} (s : System T) : Op T → Prop
  | .reserve _ n => n + (page_size - 1) < size_mod
  | .resize _ n _ => n + (page_size - 1) < size_mod
  | .push_back i _ =>
    (s.objs.getD i paged_vector.empty).last_index + 1 + (page_size - 1) < size_mod
  | .pop_back i => 0 < (s.objs.getD i paged_vector.empty).last_index
  | .assign i idx _ => idx < (s.objs.getD i paged_vector.empty).last_index
  | _ => True

instance System.pre_decidable {T : Type} (s : System T) (op : Op T) : Decidable (s.pre op) := by
  cases op <;> unfold System.pre <;> infer_instance

/-- The states reachable from the empty program through the public operations called
within their preconditions. -/
inductive Reachable {T : Type} [Inhabited T] : System T → Prop where
  | init : Reachable ⟨[], []⟩
  | step {s s1 : System T} (op : Op T) :
      Reachable s → s.pre op → s.step op = some s1 → Reachable s1

/-- The operations that grow a container. -/
inductive GrowOp (T : Type) where
  | push_back (v : T) : GrowOp T
  | reserve (n : Nat) : GrowOp T
  | resize (n : Nat) (v : T) : GrowOp T

/-- Running a growth operation. -/
def GrowOp.run {T : Type} [Inhabited T] (h : Heap T) (pv : paged_vector) :
    GrowOp T → Option (Heap T × paged_vector)
  | .push_back v => PagedVector.push_back h pv v
  | .reserve n => PagedVector.reserve h pv n
  | .resize n v => PagedVector.resize h pv n v

/-- The caller's side of a growth operation: a requested size is at most `max_size`, and
`resize` is to a size not below the current one. -/
def GrowOp.pre {T : Type} (pv : paged_vector) : GrowOp T → Prop
  | .push_back _ => pv.last_index + 1 ≤ max_size
  | .reserve n => n ≤ max_size
  | .resize n _ => pv.last_index ≤ n ∧ n ≤ max_size

instance GrowOp.pre_decidable {T : Type} (pv : paged_vector) (op : GrowOp T) :
    Decidable (op.pre pv) := by
  cases op <;> unfold GrowOp.pre <;> infer_instance

/-- The sizes a growth operation is called with here: `reserve(n)` with `n + 63` not
wrapping in `size_t`, `push_back` and `resize` as in `GrowOp.pre`. -/
def GrowOp.fits {T : Type} (pv : paged_vector) : GrowOp T → Prop
  | .push_back _ => pv.last_index + 1 ≤ max_size
  | .reserve n => n + (page_size - 1) < size_mod
  | .resize n _ => pv.last_index ≤ n ∧ n ≤ max_size

instance GrowOp.fits_decidable {T : Type} (pv : paged_vector) (op : GrowOp T) :
    Decidable (op.fits pv) := by
  cases op <;> unfold GrowOp.fits <;> infer_instance

/-- A container built from empty using only `push_back`, `reserve` and `resize` to a size not
below the current one.  The heap it starts in is arbitrary. -/
inductive GrowBuilt {T : Type} [Inhabited T] : Heap T → paged_vector → Prop where
  | empty (h : Heap T) : GrowBuilt h paged_vector.empty
  | step {h h1 : Heap T} {pv pv1 : paged_vector} (op : GrowOp T) :
      GrowBuilt h pv → op.pre pv → op.run h pv = some (h1, pv1) → GrowBuilt h1 pv1

/-- A container whose table has `page_capacity` entries, at most `int_max` of them, each a
different allocated page, and whose size is within these pages. -/
structure Full {T : Type} (h : Heap T) (pv : paged_vector) : Prop where
  len : pv.page_array.length = pv.page_capacity
  live : ∀ (p : Nat), p < pv.page_capacity →
    ∃ a pg, pv.page_array[p]? = some (some a) ∧ Heap.read h a = some pg
  inj : ∀ (p q a : Nat),
    pv.page_array[p]? = some (some a) → pv.page_array[q]? = some (some a) → p = q
  cap : pv.last_index ≤ pv.page_capacity * page_size
  small : pv.page_capacity ≤ int_max

/-- What a heap keeps across assignments into the pages of `pv`: its cells are the same in
number, allocated as before, and untouched outside the pages of `pv`. -/
structure Kept {T : Type} (pv : paged_vector) (h h1 : Heap T) : Prop where
  len : h1.length = h.length
  live : ∀ a : Nat, (Heap.read h1 a).isSome = (Heap.read h a).isSome
  frame : ∀ a : Nat, (∀ p : Nat, pv.page_array[p]? ≠ some (some a)) → h1[a]? = h[a]?

/-- What a growth step keeps: the table is extended at its end by newly allocated pages, no
page is released, and the cells outside the pages of `pv` are untouched. -/
structure Grown {T : Type} (h : Heap T) (pv : paged_vector) (h1 : Heap T)
    (pv1 : paged_vector) : Prop where
  table : ∃ ext : List (Option Nat), pv1.page_array = pv.page_array ++ ext
  fresh : ∀ p a : Nat, pv.page_array.length ≤ p → pv1.page_array[p]? = some (some a) →
    h.length ≤ a
  cap_le : pv.page_capacity ≤ pv1.page_capacity
  len_le : h.length ≤ h1.length
  live : ∀ a : Nat, (Heap.read h a).isSome → (Heap.read h1 a).isSome
  frame : ∀ a : Nat, a < h.length → (∀ p : Nat, pv.page_array[p]? ≠ some (some a)) →
    h1[a]? = h[a]?

/-- The elements of a container in index order, each read through `operator[]`. -/
def contents {T : Type} (h : Heap T) (pv : paged_vector) : List (Option T) :=
  (List.range (size pv)).map (load h pv)

/-- Pushing the elements of a list in order. -/
def push_all {T : Type} [Inhabited T] (h : Heap T) (pv : paged_vector) :
    List T → Option (Heap T × paged_vector)
  | [] => some (h, pv)
  | x :: xs => (push_back h pv x).bind fun s => push_all s.1 s.2 xs

/-- The heap after `push_back(4)` on an empty `paged_vector<int>` in an empty heap. -/
def sample_heap1 : Heap Int :=
  [some ⟨Function.update (Function.update (fun _ => default) (offset 0) default) (offset 0) 4⟩]

/-- The container after `push_back(4)` on an empty `paged_vector<int>` in an empty heap. -/
def sample_vec1 : paged_vector := ⟨1, [some 0], 1⟩

/-- The heap after `push_back(4)`, `push_back(6)` on an empty `paged_vector<int>` in an
empty heap. -/
def sample_heap : Heap Int :=
  [some ⟨Function.update (Function.update (Function.update (Function.update
    (fun _ => default) (offset 0) default) (offset 0) 4) (offset 1) default) (offset 1) 6⟩]

/-- The container after `push_back(4)`, `push_back(6)` on an empty `paged_vector<int>` in an
empty heap. -/
def sample_vec : paged_vector := ⟨2, [some 0], 1⟩

/-- Running a list of public operations, each within its precondition. -/
def System.run {T : Type} [Inhabited T] : List (Op T) → System T → Option (System T)
  | [], s => some s
  | op :: ops, s => if s.pre op then (s.step op).bind (System.run ops) else none

/-- The end-to-end scenario on a `paged_vector<int>`: `push_back(1)`, `push_back(2)`,
`push_back(3)` on the empty container. -/
def scenario_pushed : Option (Heap Int × paged_vector) :=
  push_all [] paged_vector.empty [1, 2, 3]

/-- The end-to-end scenario after the following `pop_back()`. -/
def scenario_popped : Option (Heap Int × paged_vector) :=
  scenario_pushed.bind fun s => pop_back s.1 s.2

/-- The end-to-end scenario after the following `resize(70)`. -/
def scenario_resized : Option (Heap Int × paged_vector) :=
  scenario_popped.bind fun s => resize_default s.1 s.2 70

/-- The shrink-then-grow scenario on a `paged_vector<int>`, up to the shrink: `resize(128)`
on the empty container, the write `[100] = 9`, then `resize(64)`. -/
def regrow_shrunk : Option (Heap Int × paged_vector) :=
  ((resize_default [] paged_vector.empty 128).bind fun s =>
    (store s.1 s.2 100 9).map fun h1 => (h1, s.2)).bind fun s => resize_default s.1 s.2 64

/-- The shrink-then-grow scenario after the final `resize(128, 7)`. -/
def regrow_final : Option (Heap Int × paged_vector) :=
  regrow_shrunk.bind fun s => resize s.1 s.2 128 7

/-- The size of a container is within its pages and within the sizes `n` that have
`n + page_size - 1` representable in `size_t`. -/
def Sized (pv : paged_vector) : Prop :=
  pv.last_index ≤ pv.page_capacity * page_size ∧ pv.last_index + (page_size - 1) < size_mod

/-- The smallest value of `int` (32-bit). -/
abbrev int_min : Int := -(2 ^ 31)

/-- The value of an `int` expression whose mathematical value is `x`: undefined when `x` is
not representable (signed overflow). -/
def as_int (x : Int) : Option Int :=
  if int_min ≤ x ∧ x ≤ (int_max : Int) then some x else none

/-- The conversion `static_cast<int>(n)` of a `size_t`: the value modulo `2 ^ 32`, read as
a signed number. -/
def to_int (n : Nat) : Int :=
  if n % 2 ^ 32 < 2 ^ 31 then ((n % 2 ^ 32 : Nat) : Int) else ((n % 2 ^ 32 : Nat) : Int) - 2 ^ 32

/-- The conversion of an `int` to `size_type`, as in `(*_owner)[_idx]`: the value modulo
`2 ^ 64`. -/
def to_size (i : Int) : Nat := (i % (size_mod : Int)).toNat

/-- Source: `class iterator`, the members `int _idx; paged_vector* _owner;`.  The owner is
kept as the identity of the container object. -/
structure iterator where
  idx : Int
  owner : Nat
deriving DecidableEq, Repr

/-- Source: `begin()`, `iterator(0, this)`; `this` is the object `owner`. -/
def paged_vector.begin (_pv : paged_vector) (owner : Nat) : iterator := ⟨0, owner⟩

/-- Source: `end()`, `iterator(static_cast<int>(last_index), this)`. -/
def paged_vector.end_ (pv : paged_vector) (owner : Nat) : iterator :=
  ⟨to_int pv.last_index, owner⟩

/-- Source: `iterator& operator++()`, the iterator after `++_idx`. -/
def iterator.pre_inc (it : iterator) : Option iterator :=
  (as_int (it.idx + 1)).map fun i => ⟨i, it.owner⟩

/-- Source: `iterator operator++(int)`: the value returned (`orig`) and the iterator after
the step. -/
def iterator.post_inc (it : iterator) : Option (iterator × iterator) :=
  it.pre_inc.map fun it1 => (it, it1)

/-- Source: `iterator& operator+=(const difference_type value)`. -/
def iterator.add_assign (it : iterator) (value : Int) : Option iterator :=
  (as_int (it.idx + value)).map fun i => ⟨i, it.owner⟩

/-- Source: `iterator operator+(const difference_type value) const`, `copy += value`. -/
def iterator.add (it : iterator) (value : Int) : Option iterator :=
  it.add_assign value

/-- Source: `iterator& operator--()`, the iterator after `--_idx`. -/
def iterator.pre_dec (it : iterator) : Option iterator :=
  (as_int (it.idx - 1)).map fun i => ⟨i, it.owner⟩

/-- Source: `iterator operator--(int)`: the value returned (`orig`) and the iterator after
the step. -/
def iterator.post_dec (it : iterator) : Option (iterator × iterator) :=
  it.pre_dec.map fun it1 => (it, it1)

/-- Source: `iterator& operator-=(const difference_type value)`. -/
def iterator.sub_assign (it : iterator) (value : Int) : Option iterator :=
  (as_int (it.idx - value)).map fun i => ⟨i, it.owner⟩

/-- Source: `iterator operator-(const difference_type value) const`, `copy -= value`. -/
def iterator.sub (it : iterator) (value : Int) : Option iterator :=
  it.sub_assign value

/-- Source: `difference_type operator-(const iterator& rhs) const`,
`difference_type(_idx - rhs._idx)`. -/
def iterator.diff (it rhs : iterator) : Option Int :=
  as_int (it.idx - rhs.idx)

/-- Source: `reference operator*()`, `(*_owner)[_idx]`; `pv` is the container `_owner`
points to. -/
def iterator.deref {T : Type} (h : Heap T) (pv : paged_vector) (it : iterator) :
    Option (Nat × Fin page_size) :=
  subscript h pv (to_size it.idx)

/-- Source: `reference operator[](const difference_type value) const`,
`int index = _idx + value; return (*_owner)[_idx];`. -/
def iterator.index {T : Type} (h : Heap T) (pv : paged_vector) (it : iterator)
    (value : Int) : Option (Nat × Fin page_size) :=
  match as_int (it.idx + value) with
  | none => none
  | some _index => subscript h pv (to_size it.idx)

/-- Source: `bool operator==(const iterator& rhs) const`. -/
def iterator.eq (it rhs : iterator) : Bool :=
  it.idx == rhs.idx && it.owner == rhs.owner

/-- Source: `bool operator!=(const iterator& rhs) const`. -/
def iterator.ne (it rhs : iterator) : Bool := !(it.eq rhs)

/-- Source: `bool operator<(const iterator& rhs) const`. -/
def iterator.lt (it rhs : iterator) : Bool := decide (it.idx < rhs.idx)

/-- Source: `bool operator>(const iterator& rhs) const`. -/
def iterator.gt (it rhs : iterator) : Bool := decide (it.idx > rhs.idx)

/-- Source: `bool operator<=(const iterator& rhs) const`. -/
def iterator.le (it rhs : iterator) : Bool := !(it.gt rhs)

/-- Source: `bool operator>=(const iterator& rhs) const`. -/
def iterator.ge (it rhs : iterator) : Bool := !(it.lt rhs)

/-- The loop `for (it = first; it != stop; ++it)`: the iterators at which the body runs, in
order.  It takes one unit of fuel for each test of `it != stop`. -/
def traverse (stop : iterator) : Nat → iterator → Option (List iterator)
  | 0, _ => none
  | fuel + 1, it =>
    if it.ne stop then it.pre_inc.bind fun it1 => (traverse stop fuel it1).map fun r => it :: r
    else some []

/-- The state after `resize(70)` then `resize(3)` on an empty `paged_vector<int>`. -/
def shrunk_70_3 : Option (Heap Int × paged_vector) :=
  (resize_default [] paged_vector.empty 70).bind fun s => resize_default s.1 s.2 3

/-- A well-formed container: its table has `page_capacity` entries, at most `int_max` of
them, and its non-null entries are different allocated pages.  Null entries and any
`last_index` are allowed. -/
structure Valid {T : Type} (h : Heap T) (pv : paged_vector) : Prop where
  len : pv.page_array.length = pv.page_capacity
  live : ∀ (p a : Nat), pv.page_array[p]? = some (some a) → ∃ pg, Heap.read h a = some pg
  inj : ∀ (p q a : Nat),
    pv.page_array[p]? = some (some a) → pv.page_array[q]? = some (some a) → p = q
  small : pv.page_capacity ≤ int_max

/-- Two containers that share no page: no page handle of `a` is a page handle of `b`. -/
def Apart (a b : paged_vector) : Prop :=
  ∀ (p q addr : Nat), a.page_array[p]? = some (some addr) →
    b.page_array[q]? ≠ some (some addr)

/-- The heap after a second `paged_vector<int>` was built by `push_back(5)` next to the
container `sample_vec`. -/
def sample_heap2 : Heap Int :=
  sample_heap ++
    [some ⟨Function.update (Function.update (fun _ => default) (offset 0) default)
      (offset 0) 5⟩]

/-- The second container of `sample_heap2`, after `push_back(5)`. -/
def sample_other : paged_vector := ⟨1, [some 1], 1⟩

/-- The two operations of a stack: `push_back(v)` and `pop_back()`. -/
inductive StackOp (T : Type) where
  | push_back (v : T) : StackOp T
  | pop_back : StackOp T

/-- Running a stack operation. -/
def StackOp.run {T : Type} [Inhabited T] (h : Heap T) (pv : paged_vector) :
    StackOp T → Option (Heap T × paged_vector)
  | .push_back v => PagedVector.push_back h pv v
  | .pop_back => PagedVector.pop_back h pv

/-- The caller's side of a stack operation: `push_back` to a size of at most `max_size`,
`pop_back` only on a non-empty container. -/
def StackOp.pre {T : Type} (pv : paged_vector) : StackOp T → Prop
  | .push_back _ => pv.last_index + 1 ≤ max_size
  | .pop_back => 0 < pv.last_index

instance StackOp.pre_decidable {T : Type} (pv : paged_vector) (op : StackOp T) :
    Decidable (op.pre pv) := by
  cases op <;> unfold StackOp.pre <;> infer_instance

/-- A container reached from empty by `push_back` and `pop_back` calls, with the largest
`ceil(s / 64)` over the sizes `s` reached so far. -/
inductive StackBuilt {T : Type} [Inhabited T] : Heap T → paged_vector → Nat → Prop where
  | empty (h : Heap T) : StackBuilt h paged_vector.empty 0
  | step {h h1 : Heap T} {pv pv1 : paged_vector} {m : Nat} (op : StackOp T) :
      StackBuilt h pv m → op.pre pv → op.run h pv = some (h1, pv1) →
      StackBuilt h1 pv1 (max m ((pv1.last_index + (page_size - 1)) / page_size))


theorem shr_bits (i : Nat) : i >>> bits = i / 64 := by
  simp [bits, Nat.shiftRight_eq_div_pow]

theorem and_mask (i : Nat) : i &&& mask = i % 64 := by
  have := Nat.and_pow_two_sub_one_eq_mod i 6
  simpa [mask, page_size, bits] using this

theorem offset_val (i : Nat) : (offset i).val = i % 64 := and_mask i

theorem offset_ne {i j : Nat} (hne : i ≠ j) (hp : i >>> bits = j >>> bits) :
    offset i ≠ offset j := by
  intro h
  have h1 := congrArg Fin.val h
  rw [offset_val, offset_val] at h1
  rw [shr_bits, shr_bits] at hp
  have := Nat.div_add_mod i 64
  have := Nat.div_add_mod j 64
  omega

theorem Heap.read_eq_some {T : Type} {h : Heap T} {a : Nat} {pg : page T} :
    Heap.read h a = some pg ↔ h[a]? = some (some pg) := by
  unfold Heap.read
  split
  · rename_i pg1 heq
    simp [heq]
  · rename_i hne
    constructor
    · intro h1; cases h1
    · intro h1; exact absurd h1 (hne pg)

theorem Heap.read_lt {T : Type} {h : Heap T} {a : Nat} {pg : page T}
    (hr : Heap.read h a = some pg) : a < h.length := by
  rw [Heap.read_eq_some] at hr
  by_contra hc
  rw [List.getElem?_eq_none (by omega)] at hr
  cases hr

theorem Heap.read_append_of_lt {T : Type} {h : Heap T} (r : Heap T) {a : Nat}
    (ha : a < h.length) : Heap.read (h ++ r) a = Heap.read h a := by
  unfold Heap.read
  rw [List.getElem?_append_left ha]

theorem Heap.read_append_right {T : Type} (h r : Heap T) (j : Nat) :
    Heap.read (h ++ r) (h.length + j) = Heap.read r j := by
  unfold Heap.read
  rw [List.getElem?_append_right (by omega)]
  simp

theorem Heap.read_set_eq {T : Type} {h : Heap T} {a : Nat} (c : Option (page T))
    (ha : a < h.length) : Heap.read (h.set a c) a = c := by
  unfold Heap.read
  rw [List.getElem?_set, if_pos rfl, if_pos ha]
  cases c <;> rfl

theorem Heap.read_set_ne {T : Type} (h : Heap T) {a b : Nat} (c : Option (page T))
    (hab : a ≠ b) : Heap.read (h.set a c) b = Heap.read h b := by
  unfold Heap.read
  rw [List.getElem?_set_ne hab]

theorem subscript_of_slot {T : Type} {h : Heap T} {pv : paged_vector} {i a : Nat}
    (hs : pv.page_array[i >>> bits]? = some (some a)) :
    subscript h pv i = (Heap.read h a).map fun _ => (a, offset i) := by
  unfold subscript
  rw [hs]
  cases hr : Heap.read h a <;> simp [hr]

theorem subscript_of_no_slot {T : Type} {h : Heap T} {pv : paged_vector} {i : Nat}
    (hs : ∀ a : Nat, pv.page_array[i >>> bits]? ≠ some (some a)) :
    subscript h pv i = none := by
  unfold subscript
  split
  · rename_i a heq; exact absurd heq (hs a)
  · rfl

theorem load_of_slot {T : Type} {h : Heap T} {pv : paged_vector} {i a : Nat}
    (hs : pv.page_array[i >>> bits]? = some (some a)) :
    load h pv i = (Heap.read h a).map fun pg => pg.elements (offset i) := by
  unfold load
  rw [subscript_of_slot hs]
  cases hr : Heap.read h a <;> simp [hr]

theorem load_of_no_slot {T : Type} {h : Heap T} {pv : paged_vector} {i : Nat}
    (hs : ∀ a : Nat, pv.page_array[i >>> bits]? ≠ some (some a)) :
    load h pv i = none := by
  unfold load
  rw [subscript_of_no_slot hs]

theorem store_of_slot {T : Type} {h : Heap T} {pv : paged_vector} {i a : Nat} (v : T)
    (hs : pv.page_array[i >>> bits]? = some (some a)) :
    store h pv i v = (Heap.read h a).map fun pg =>
      h.set a (some ⟨Function.update pg.elements (offset i) v⟩) := by
  unfold store
  rw [subscript_of_slot hs]
  cases hr : Heap.read h a <;> simp [hr]

/-- One assignment through `operator[]` on a slot whose page is allocated. -/
theorem store_spec {T : Type} {h : Heap T} {pv : paged_vector} {i a : Nat} {pg : page T}
    (v : T) (hs : pv.page_array[i >>> bits]? = some (some a)) (hr : Heap.read h a = some pg) :
    store h pv i v = some (h.set a (some ⟨Function.update pg.elements (offset i) v⟩)) := by
  rw [store_of_slot v hs, hr]; rfl

theorem page_divide_ceil_eq (n : Nat) (h : n + (page_size - 1) < size_mod) :
    page_divide_ceil n = (n + 63) / 64 := by
  unfold page_divide_ceil
  have h1 : n + page_size - 1 = n + 63 := by simp [page_size, bits]
  have h2 : (page_size : Nat) = 64 := by simp [page_size, bits]
  rw [h1, h2, Nat.mod_eq_of_lt]
  simpa [page_size, bits] using h

theorem num_pages_eq (pv : paged_vector) : num_pages pv = pv.last_index / 64 := by
  simp [num_pages, shr_bits]

theorem for_range_zero {σ : Type} (body : σ → Nat → Option σ) (s : σ) (i : Nat) :
    for_range body s i 0 = some s := rfl

theorem for_range_succ {σ : Type} (body : σ → Nat → Option σ) (s : σ) (i k : Nat) :
    for_range body s i (k + 1) = (body s i).bind fun s1 => for_range body s1 (i + 1) k := rfl

/-- The handle-copy loop of `resize_pages` from position `i` on. -/
theorem copy_loop_spec (tab : List (Option Nat)) (N : Nat) :
    ∀ (k i : Nat), i + k ≤ tab.length → i + k ≤ N →
      for_range (fun arr j =>
          match tab[j]? with
          | none => none
          | some p => if j < arr.length then some (arr.set j p) else none)
        (tab.take i ++ List.replicate (N - i) none) i k
        = some (tab.take (i + k) ++ List.replicate (N - (i + k)) none) := by
  intro k
  induction k with
  | zero => intro i _ _; simp [for_range]
  | succ k ih =>
    intro i h1 h2
    rw [for_range_succ]
    have hi : i < tab.length := by omega
    have hget : tab[i]? = some tab[i] := List.getElem?_eq_getElem hi
    have hlen : i < (tab.take i ++ List.replicate (N - i) (none : Option Nat)).length := by
      simp; omega
    simp only [hget, hlen, if_true, Option.some_bind]
    have hl1 : (tab.take i).length = i := by
      rw [List.length_take]; exact Nat.min_eq_left (Nat.le_of_lt hi)
    have hl2 : (tab.take (i + 1)).length = i + 1 := by
      rw [List.length_take]; exact Nat.min_eq_left hi
    have hset : (tab.take i ++ List.replicate (N - i) (none : Option Nat)).set i tab[i]
        = tab.take (i + 1) ++ List.replicate (N - (i + 1)) none := by
      apply List.ext_getElem?
      intro j
      rw [List.getElem?_set]
      by_cases hj : i = j
      · subst hj
        rw [if_pos rfl, if_pos hlen, List.getElem?_append_left (by rw [hl2]; omega),
          List.getElem?_take_of_lt (by omega), hget]
      · rw [if_neg hj]
        by_cases hlt : j < i
        · rw [List.getElem?_append_left (by rw [hl1]; exact hlt),
            List.getElem?_append_left (by rw [hl2]; omega),
            List.getElem?_take_of_lt hlt, List.getElem?_take_of_lt (by omega)]
        · rw [List.getElem?_append_right (by rw [hl1]; omega),
            List.getElem?_append_right (by rw [hl2]; omega), hl1, hl2,
            List.getElem?_replicate, List.getElem?_replicate]
          by_cases hjN : j < N
          · rw [if_pos (by omega), if_pos (by omega)]
          · rw [if_neg (by omega), if_neg (by omega)]
    rw [hset]
    have := ih (i + 1) (by omega) (by omega)
    simpa [Nat.add_assoc, Nat.add_comm 1 k] using this

theorem copy_handles_spec (tab : List (Option Nat)) (N : Nat) (h : tab.length ≤ N)
    (hs : tab.length ≤ int_max) :
    copy_handles tab (List.replicate N none) tab.length
      = some (tab ++ List.replicate (N - tab.length) none) := by
  have := copy_loop_spec tab N tab.length 0 (by omega) (by omega)
  unfold copy_handles
  rw [if_neg (Nat.not_lt.mpr hs)]
  simpa using this

/-- The page-creation loop of `resize_pages`. -/
theorem create_loop_spec {T : Type} [Inhabited T] (li c : Nat) :
    ∀ (k : Nat) (h : Heap T) (pre : List (Option Nat)),
      for_range create_page (h, (⟨li, pre ++ List.replicate k none, c⟩ : paged_vector))
          pre.length k
        = some (h ++ List.replicate k (some ⟨fun _ => default⟩),
            ⟨li, pre ++ (List.range' h.length k).map some, c⟩) := by
  intro k
  induction k with
  | zero => intro h pre; simp [for_range]
  | succ k ih =>
    intro h pre
    rw [for_range_succ]
    have hstep : create_page (h, (⟨li, pre ++ List.replicate (k + 1) none, c⟩ : paged_vector))
        pre.length
        = some (h ++ [some ⟨fun _ => default⟩],
            ⟨li, (pre ++ [some h.length]) ++ List.replicate k none, c⟩) := by
      simp [create_page, List.replicate_succ]
    rw [hstep, Option.some_bind]
    have := ih (h ++ [some ⟨fun _ => default⟩]) (pre ++ [some h.length])
    simp only [List.length_append, List.length_singleton] at this
    rw [this]
    simp [List.replicate_succ, List.range'_succ]


theorem Kept.kept_refl {T : Type} (pv : paged_vector) (h : Heap T) : Kept pv h h :=
  ⟨rfl, fun _ => rfl, fun _ _ => rfl⟩

theorem Kept.kept_trans {T : Type} {pv : paged_vector} {h h1 h2 : Heap T}
    (k1 : Kept pv h h1) (k2 : Kept pv h1 h2) : Kept pv h h2 :=
  ⟨k2.len.trans k1.len, fun a => (k2.live a).trans (k1.live a),
    fun a ha => (k2.frame a ha).trans (k1.frame a ha)⟩

theorem Heap.read_isSome_of_eq {T : Type} {h h1 : Heap T} {a : Nat}
    (hl : (Heap.read h1 a).isSome = (Heap.read h a).isSome) {pg : page T}
    (hr : Heap.read h a = some pg) : ∃ pg1, Heap.read h1 a = some pg1 := by
  rw [hr] at hl
  exact Option.isSome_iff_exists.mp hl

theorem Full.full_of_kept {T : Type} {pv : paged_vector} {h h1 : Heap T}
    (hf : Full h pv) (hk : Kept pv h h1) : Full h1 pv where
  len := hf.len
  live := by
    intro p hp
    obtain ⟨a, pg, hs, hr⟩ := hf.live p hp
    obtain ⟨pg1, hr1⟩ := Heap.read_isSome_of_eq (hk.live a) hr
    exact ⟨a, pg1, hs, hr1⟩
  inj := hf.inj
  cap := hf.cap
  small := hf.small

theorem subscript_of_kept {T : Type} {pv : paged_vector} {h h1 : Heap T}
    (hk : Kept pv h h1) (i : Nat) : subscript h1 pv i = subscript h pv i := by
  cases hs : pv.page_array[i >>> bits]? with
  | none =>
    rw [subscript_of_no_slot (by intro a; rw [hs]; simp),
      subscript_of_no_slot (by intro a; rw [hs]; simp)]
  | some o =>
    cases o with
    | none =>
      rw [subscript_of_no_slot (by intro a; rw [hs]; simp),
        subscript_of_no_slot (by intro a; rw [hs]; simp)]
    | some a =>
      rw [subscript_of_slot hs, subscript_of_slot hs]
      have := hk.live a
      cases h1r : Heap.read h1 a <;> cases hr : Heap.read h a <;> simp_all

theorem Full.slot {T : Type} {pv : paged_vector} {h : Heap T} (hf : Full h pv) {i : Nat}
    (hi : i < pv.page_capacity * page_size) :
    ∃ a pg, pv.page_array[i >>> bits]? = some (some a) ∧ Heap.read h a = some pg := by
  apply hf.live
  rw [shr_bits]
  have h64 : (page_size : Nat) = 64 := by simp [page_size, bits]
  rw [h64] at hi
  exact Nat.div_lt_of_lt_mul (by omega)

/-- One assignment through `operator[]` inside the allocated pages. -/
theorem store_step {T : Type} {pv : paged_vector} {h : Heap T} (hf : Full h pv) {i : Nat}
    (hi : i < pv.page_capacity * page_size) (v : T) :
    ∃ h1, store h pv i v = some h1 ∧ Kept pv h h1 ∧ load h1 pv i = some v ∧
      ∀ j : Nat, j ≠ i → load h1 pv j = load h pv j := by
  obtain ⟨a, pg, hs, hr⟩ := hf.slot hi
  have ha := Heap.read_lt hr
  refine ⟨_, store_spec v hs hr, ⟨?_, ?_, ?_⟩, ?_, ?_⟩
  · simp
  · intro b
    by_cases hab : a = b
    · subst hab
      rw [Heap.read_set_eq _ ha, hr]; rfl
    · rw [Heap.read_set_ne _ _ hab]
  · intro b hb
    have hab : a ≠ b := by
      intro hab; subst hab; exact hb _ hs
    rw [List.getElem?_set_ne hab]
  · rw [load_of_slot hs, Heap.read_set_eq _ ha]
    simp
  · intro j hj
    cases hsj : pv.page_array[j >>> bits]? with
    | none =>
      rw [load_of_no_slot (by intro a; rw [hsj]; simp),
        load_of_no_slot (by intro a; rw [hsj]; simp)]
    | some o =>
      cases o with
      | none =>
        rw [load_of_no_slot (by intro a; rw [hsj]; simp),
          load_of_no_slot (by intro a; rw [hsj]; simp)]
      | some b =>
        rw [load_of_slot hsj, load_of_slot hsj]
        by_cases hab : a = b
        · subst hab
          have hp : j >>> bits = i >>> bits := hf.inj _ _ _ hsj hs
          have hoff : offset j ≠ offset i := offset_ne hj hp
          rw [Heap.read_set_eq _ ha, hr]
          simp [Function.update_noteq hoff]
        · rw [Heap.read_set_ne _ _ hab]

/-- The loop of `init_range` inside the allocated pages. -/
theorem init_loop_spec {T : Type} {pv : paged_vector} (v : T) :
    ∀ (k start : Nat) (h : Heap T), Full h pv → start + k ≤ pv.page_capacity * page_size →
      ∃ h1, for_range (fun h1 i => store h1 pv i v) h start k = some h1 ∧ Kept pv h h1 ∧
        (∀ i : Nat, start ≤ i → i < start + k → load h1 pv i = some v) ∧
        (∀ i : Nat, (i < start ∨ start + k ≤ i) → load h1 pv i = load h pv i) := by
  intro k
  induction k with
  | zero =>
    intro start h _ _
    exact ⟨h, rfl, Kept.kept_refl pv h, fun i h1 h2 => absurd h2 (by omega), fun _ _ => rfl⟩
  | succ k ih =>
    intro start h hf hle
    obtain ⟨h1, hst, hk1, hl1, ho1⟩ := store_step hf (show start < _ by omega) v
    obtain ⟨h2, hfr, hk2, hl2, ho2⟩ := ih (start + 1) h1 (hf.full_of_kept hk1) (by omega)
    refine ⟨h2, ?_, hk1.kept_trans hk2, ?_, ?_⟩
    · rw [for_range_succ, hst]; exact hfr
    · intro i hi1 hi2
      by_cases hi : i = start
      · subst hi
        rw [ho2 i (Or.inl (by omega)), hl1]
      · exact hl2 i (by omega) (by omega)
    · intro i hi
      rw [ho2 i (by omega), ho1 i (by omega)]

theorem init_range_spec {T : Type} {pv : paged_vector} {h : Heap T} (hf : Full h pv)
    {start stop : Nat} (hle : start ≤ stop) (hcap : stop ≤ pv.page_capacity * page_size)
    (v : T) :
    ∃ h1, init_range h pv start stop v = some h1 ∧ Kept pv h h1 ∧
      (∀ i : Nat, start ≤ i → i < stop → load h1 pv i = some v) ∧
      (∀ i : Nat, (i < start ∨ stop ≤ i) → load h1 pv i = load h pv i) := by
  obtain ⟨h1, hr, hk, hl, ho⟩ := @init_loop_spec T pv v (stop - start) start h hf (by omega)
  refine ⟨h1, hr, hk, ?_, ?_⟩
  · intro i h1 h2; exact hl i h1 (by omega)
  · intro i hi; exact ho i (by omega)



theorem page_size_eq : (page_size : Nat) = 64 := by simp [page_size, bits]

theorem resize_pages_grow {T : Type} [Inhabited T] {h : Heap T} {pv : paged_vector}
    (hlen : pv.page_array.length = pv.page_capacity) (hsm : pv.page_capacity ≤ int_max)
    {N : Nat} (hN : num_pages pv ≤ N) :
    resize_pages h pv N
      = some (h ++ List.replicate (N - pv.page_capacity) (some ⟨fun _ => default⟩),
          ⟨pv.last_index,
            pv.page_array ++ (List.range' h.length (N - pv.page_capacity)).map some,
            max pv.page_capacity N⟩) := by
  obtain ⟨li, tab, c⟩ := pv
  simp only at hlen hsm
  subst hlen
  unfold resize_pages
  by_cases h1 : N < tab.length
  · have h2 : ¬ N < num_pages ⟨li, tab, tab.length⟩ := by omega
    simp only [h1, h2, if_true, if_false]
    have h3 : N - tab.length = 0 := by omega
    simp [h3, Nat.max_eq_left (Nat.le_of_lt h1)]
  · by_cases h2 : N > tab.length
    · simp only [h1, h2, if_true, if_false]
      rw [copy_handles_spec tab N (by omega) hsm]
      simp only
      rw [create_loop_spec li tab.length (N - tab.length) h tab]
      simp [Nat.max_eq_right (Nat.le_of_lt h2)]
    · have h3 : N = tab.length := by omega
      subst h3
      simp

theorem grow_table_get (tab : List (Option Nat)) (b k p : Nat) :
    (tab ++ (List.range' b k).map some)[p]?
      = if p < tab.length then tab[p]?
        else if p - tab.length < k then some (some (b + (p - tab.length))) else none := by
  by_cases hp : p < tab.length
  · rw [if_pos hp, List.getElem?_append_left hp]
  · rw [if_neg hp, List.getElem?_append_right (by omega)]
    by_cases hk : p - tab.length < k
    · rw [if_pos hk]
      simp [List.getElem?_range', hk]
    · rw [if_neg hk]
      simp; omega

theorem grow_heap_read {T : Type} (h : Heap T) (pg : page T) (k a : Nat) :
    Heap.read (h ++ List.replicate k (some pg)) a
      = if a < h.length then Heap.read h a
        else if a - h.length < k then some pg else none := by
  by_cases ha : a < h.length
  · rw [if_pos ha, Heap.read_append_of_lt _ ha]
  · rw [if_neg ha]
    have : a = h.length + (a - h.length) := by omega
    rw [this, Heap.read_append_right]
    simp only [Nat.add_sub_cancel_left]
    unfold Heap.read
    rw [List.getElem?_replicate]
    by_cases hk : a - h.length < k
    · simp [hk]
    · simp [hk]

theorem Full.entry_lt {T : Type} {h : Heap T} {pv : paged_vector} (hf : Full h pv)
    {p a : Nat} (hs : pv.page_array[p]? = some (some a)) : a < h.length := by
  have hp : p < pv.page_capacity := by
    rw [← hf.len]
    by_contra hc
    rw [List.getElem?_eq_none (by omega)] at hs
    cases hs
  obtain ⟨a1, pg, hs1, hr⟩ := hf.live p hp
  rw [hs] at hs1
  cases hs1
  exact Heap.read_lt hr

/-- Appending `k` new pages keeps a full container full. -/
theorem Full.grow {T : Type} {h : Heap T} {pv : paged_vector} (hf : Full h pv)
    (pg : page T) (k li c : Nat) (hc : c = pv.page_capacity + k) (hli : li ≤ c * page_size)
    (hsm : c ≤ int_max) :
    Full (h ++ List.replicate k (some pg))
      ⟨li, pv.page_array ++ (List.range' h.length k).map some, c⟩ where
  len := by simp [hf.len, hc]
  live := by
    intro p hp
    simp only at hp
    simp only [grow_table_get, grow_heap_read]
    by_cases hpc : p < pv.page_capacity
    · obtain ⟨a, pg1, hs, hr⟩ := hf.live p hpc
      refine ⟨a, pg1, ?_, ?_⟩
      · rw [if_pos (by rw [hf.len]; exact hpc)]; exact hs
      · rw [if_pos (Heap.read_lt hr)]; exact hr
    · refine ⟨h.length + (p - pv.page_array.length), pg, ?_, ?_⟩
      · rw [if_neg (by rw [hf.len]; exact hpc), if_pos (by rw [hf.len]; omega)]
      · rw [if_neg (by omega), if_pos (by rw [hf.len]; omega)]
  inj := by
    intro p q a hp hq
    simp only [grow_table_get] at hp hq
    by_cases hpc : p < pv.page_array.length
    · rw [if_pos hpc] at hp
      have ha := hf.entry_lt hp
      by_cases hqc : q < pv.page_array.length
      · rw [if_pos hqc] at hq
        exact hf.inj p q a hp hq
      · rw [if_neg hqc] at hq
        by_cases hk : q - pv.page_array.length < k
        · rw [if_pos hk] at hq
          simp at hq
          omega
        · rw [if_neg hk] at hq; cases hq
    · rw [if_neg hpc] at hp
      by_cases hkp : p - pv.page_array.length < k
      · rw [if_pos hkp] at hp
        simp at hp
        by_cases hqc : q < pv.page_array.length
        · rw [if_pos hqc] at hq
          have ha := hf.entry_lt hq
          omega
        · rw [if_neg hqc] at hq
          by_cases hk : q - pv.page_array.length < k
          · rw [if_pos hk] at hq
            simp at hq
            omega
          · rw [if_neg hk] at hq; cases hq
      · rw [if_neg hkp] at hp; cases hp
  cap := hli
  small := hsm

theorem Grown.of_append {T : Type} (h r : Heap T) (pv : paged_vector)
    (k li c : Nat) (hc : pv.page_capacity ≤ c) :
    Grown h pv (h ++ r) ⟨li, pv.page_array ++ (List.range' h.length k).map some, c⟩ where
  table := ⟨_, rfl⟩
  fresh := by
    intro p a hp hs
    simp only [grow_table_get] at hs
    rw [if_neg (by omega)] at hs
    by_cases hk : p - pv.page_array.length < k
    · rw [if_pos hk] at hs
      simp at hs
      omega
    · rw [if_neg hk] at hs; cases hs
  cap_le := hc
  len_le := by simp
  live := by
    intro a ha
    obtain ⟨pg, hr⟩ := Option.isSome_iff_exists.mp ha
    rw [Heap.read_append_of_lt _ (Heap.read_lt hr)]
    exact ha
  frame := by
    intro a ha _
    exact List.getElem?_append_left ha

/-- Reading a slot of an old page after the table and the heap were extended. -/
theorem load_grow_old {T : Type} {h : Heap T} {pv : paged_vector} (hf : Full h pv)
    (r : Heap T) (ext : List (Option Nat)) (li c : Nat) {i : Nat}
    (hi : i < pv.page_capacity * page_size) :
    load (h ++ r) ⟨li, pv.page_array ++ ext, c⟩ i = load h pv i ∧
    subscript (h ++ r) ⟨li, pv.page_array ++ ext, c⟩ i = subscript h pv i := by
  obtain ⟨a, pg, hs, hr⟩ := hf.slot hi
  have ha := Heap.read_lt hr
  have hp : i >>> bits < pv.page_array.length := by
    by_contra hc
    rw [List.getElem?_eq_none (by omega)] at hs
    cases hs
  have hs1 : (⟨li, pv.page_array ++ ext, c⟩ : paged_vector).page_array[i >>> bits]?
      = some (some a) := by
    simp only
    rw [List.getElem?_append_left hp]; exact hs
  rw [load_of_slot hs1, load_of_slot hs, subscript_of_slot hs1, subscript_of_slot hs,
    Heap.read_append_of_lt _ ha]
  exact ⟨rfl, rfl⟩



theorem Grown.grown_refl {T : Type} (h : Heap T) (pv : paged_vector) : Grown h pv h pv where
  table := ⟨[], by simp⟩
  fresh := by
    intro p a hp hs
    rw [List.getElem?_eq_none hp] at hs
    cases hs
  cap_le := Nat.le_refl _
  len_le := Nat.le_refl _
  live := fun _ ha => ha
  frame := fun _ _ _ => rfl

theorem Grown.not_entry {T : Type} {h h1 : Heap T} {pv pv1 : paged_vector}
    (hg : Grown h pv h1 pv1) {a : Nat} (ha : a < h.length)
    (hno : ∀ p : Nat, pv.page_array[p]? ≠ some (some a)) :
    ∀ p : Nat, pv1.page_array[p]? ≠ some (some a) := by
  intro p hp
  by_cases hpl : p < pv.page_array.length
  · obtain ⟨ext, hext⟩ := hg.table
    rw [hext, List.getElem?_append_left hpl] at hp
    exact hno p hp
  · have := hg.fresh p a (by omega) hp
    omega

theorem Grown.grown_trans {T : Type} {h h1 h2 : Heap T} {pv pv1 pv2 : paged_vector}
    (g1 : Grown h pv h1 pv1) (g2 : Grown h1 pv1 h2 pv2) : Grown h pv h2 pv2 where
  table := by
    obtain ⟨e1, he1⟩ := g1.table
    obtain ⟨e2, he2⟩ := g2.table
    exact ⟨e1 ++ e2, by rw [he2, he1, List.append_assoc]⟩
  fresh := by
    intro p a hp hs
    by_cases hpl : p < pv1.page_array.length
    · obtain ⟨e2, he2⟩ := g2.table
      rw [he2, List.getElem?_append_left hpl] at hs
      exact g1.fresh p a hp hs
    · have := g2.fresh p a (by omega) hs
      have := g1.len_le
      omega
  cap_le := Nat.le_trans g1.cap_le g2.cap_le
  len_le := Nat.le_trans g1.len_le g2.len_le
  live := fun a ha => g2.live a (g1.live a ha)
  frame := by
    intro a ha hno
    rw [← g1.frame a ha hno]
    exact g2.frame a (Nat.lt_of_lt_of_le ha g1.len_le) (g1.not_entry ha hno)

theorem Grown.grown_of_kept {T : Type} {h h1 h2 : Heap T} {pv pv1 : paged_vector}
    (hg : Grown h pv h1 pv1) (hk : Kept pv1 h1 h2) (li : Nat) :
    Grown h pv h2 ⟨li, pv1.page_array, pv1.page_capacity⟩ where
  table := hg.table
  fresh := hg.fresh
  cap_le := hg.cap_le
  len_le := by rw [hk.len]; exact hg.len_le
  live := by
    intro a ha
    rw [hk.live a]; exact hg.live a ha
  frame := by
    intro a ha hno
    rw [← hg.frame a ha hno]
    exact hk.frame a (hg.not_entry ha hno)

theorem load_last_index {T : Type} (h : Heap T) (pv : paged_vector) (li i : Nat) :
    load h ⟨li, pv.page_array, pv.page_capacity⟩ i = load h pv i := rfl

theorem subscript_last_index {T : Type} (h : Heap T) (pv : paged_vector) (li i : Nat) :
    subscript h ⟨li, pv.page_array, pv.page_capacity⟩ i = subscript h pv i := rfl

theorem Full.last_index {T : Type} {h : Heap T} {pv : paged_vector} (hf : Full h pv)
    (li : Nat) (hli : li ≤ pv.page_capacity * page_size) :
    Full h ⟨li, pv.page_array, pv.page_capacity⟩ :=
  ⟨hf.len, hf.live, hf.inj, hli, hf.small⟩

/-- Source `resize_pages` to a page count not below `num_pages()`, on a full container. -/
theorem resize_pages_spec {T : Type} [Inhabited T] {h : Heap T} {pv : paged_vector}
    (hf : Full h pv) {N : Nat} (hN : num_pages pv ≤ N) (hNs : N ≤ int_max) :
    ∃ h1 pv1, resize_pages h pv N = some (h1, pv1) ∧ Full h1 pv1 ∧ Grown h pv h1 pv1 ∧
      pv1.last_index = pv.last_index ∧ pv1.page_capacity = max pv.page_capacity N ∧
      h1.length = h.length + (N - pv.page_capacity) ∧
      (∀ i : Nat, i < pv.page_capacity * page_size →
        load h1 pv1 i = load h pv i ∧ subscript h1 pv1 i = subscript h pv i) := by
  have hmax : max pv.page_capacity N = pv.page_capacity + (N - pv.page_capacity) := by omega
  have hsm := hf.small
  refine ⟨_, _, resize_pages_grow hf.len hf.small hN, ?_, ?_, rfl, rfl, by simp, ?_⟩
  · refine hf.grow _ _ _ _ hmax ?_ (by omega)
    have := hf.cap
    rw [page_size_eq] at *
    omega
  · exact Grown.of_append _ _ _ _ _ _ (by omega)
  · intro i hi
    exact load_grow_old hf _ _ _ _ hi

/-- Source `resize(size, value)` to a size not below the current one, on a full container. -/
theorem resize_grow_spec {T : Type} [Inhabited T] {h : Heap T} {pv : paged_vector}
    (hf : Full h pv) {n : Nat} (hn : pv.last_index ≤ n) (hm : n ≤ max_size) (v : T) :
    ∃ h2 pv2, resize h pv n v = some (h2, pv2) ∧ Full h2 pv2 ∧ Grown h pv h2 pv2 ∧
      pv2.last_index = n ∧ pv2.page_capacity = max pv.page_capacity ((n + 63) / 64) ∧
      (∀ i : Nat, i < pv.last_index → load h2 pv2 i = load h pv i) ∧
      (∀ i : Nat, pv.last_index ≤ i → i < n → load h2 pv2 i = some v) ∧
      (∀ i : Nat, i < pv.page_capacity * page_size →
        subscript h2 pv2 i = subscript h pv i) := by
  have ho : n + (page_size - 1) < size_mod := by
    have := hm
    simp only [max_size, int_max, page_size, size_mod, bits] at *
    omega
  have hN : num_pages pv ≤ (n + 63) / 64 := by
    rw [num_pages_eq]; omega
  have hNs : (n + 63) / 64 ≤ int_max := by
    have := hm
    simp only [max_size, int_max, page_size, bits] at *
    omega
  obtain ⟨h1, pv1, hrp, hf1, hg1, hli1, hc1, _, hold⟩ := resize_pages_spec hf hN hNs
  have hncap : n ≤ pv1.page_capacity * page_size := by
    rw [hc1, page_size_eq]
    have : n ≤ (n + 63) / 64 * 64 := by omega
    have : (n + 63) / 64 ≤ max pv.page_capacity ((n + 63) / 64) := Nat.le_max_right _ _
    nlinarith
  have hcap := hf.cap
  unfold resize
  simp only [if_neg (Nat.not_lt.mpr hn), page_divide_ceil_eq n ho, hrp]
  by_cases hgt : n > pv.last_index
  · obtain ⟨h2, hir, hk, hl, hoo⟩ := init_range_spec hf1 hn hncap v
    simp only [if_pos hgt, hir]
    refine ⟨_, _, rfl, (hf1.full_of_kept hk).last_index n hncap, hg1.grown_of_kept hk n, rfl, hc1,
      ?_, ?_, ?_⟩
    · intro i hi
      rw [load_last_index, hoo i (Or.inl hi)]
      exact (hold i (by omega)).1
    · intro i hi1 hi2
      rw [load_last_index]; exact hl i hi1 hi2
    · intro i hi
      rw [subscript_last_index, subscript_of_kept hk]
      exact (hold i hi).2
  · have hneq : n = pv.last_index := by omega
    simp only [if_neg hgt]
    refine ⟨_, _, rfl, hf1.last_index n hncap, hg1.grown_of_kept (Kept.kept_refl _ _) n, rfl, hc1,
      ?_, ?_, ?_⟩
    · intro i hi
      rw [load_last_index]; exact (hold i (by omega)).1
    · intro i hi1 hi2; omega
    · intro i hi
      rw [subscript_last_index]; exact (hold i hi).2

/-- Source `reserve(size)` on a full container. -/
theorem reserve_spec {T : Type} [Inhabited T] {h : Heap T} {pv : paged_vector}
    (hf : Full h pv) {n : Nat} (hm : n ≤ max_size) :
    ∃ h1 pv1, reserve h pv n = some (h1, pv1) ∧ Full h1 pv1 ∧ Grown h pv h1 pv1 ∧
      pv1.last_index = pv.last_index ∧
      pv1.page_capacity
        = (if n > pv.last_index then max pv.page_capacity ((n + 63) / 64)
           else pv.page_capacity) ∧
      (∀ i : Nat, i < pv.page_capacity * page_size →
        load h1 pv1 i = load h pv i ∧ subscript h1 pv1 i = subscript h pv i) := by
  have ho : n + (page_size - 1) < size_mod := by
    have := hm
    simp only [max_size, int_max, page_size, size_mod, bits] at *
    omega
  have hNs : (n + 63) / 64 ≤ int_max := by
    have := hm
    simp only [max_size, int_max, page_size, bits] at *
    omega
  unfold reserve
  by_cases hgt : n > pv.last_index
  · have hN : num_pages pv ≤ (n + 63) / 64 := by
      rw [num_pages_eq]; omega
    obtain ⟨h1, pv1, hrp, hf1, hg1, hli1, hc1, _, hold⟩ := resize_pages_spec hf hN hNs
    simp only [if_pos hgt, page_divide_ceil_eq n ho]
    exact ⟨h1, pv1, hrp, hf1, hg1, hli1, hc1, hold⟩
  · simp only [if_neg hgt]
    exact ⟨h, pv, rfl, hf, Grown.grown_refl h pv, rfl, rfl, fun i _ => ⟨rfl, rfl⟩⟩

/-- Source `push_back(value)` on a full container. -/
theorem push_back_spec {T : Type} [Inhabited T] {h : Heap T} {pv : paged_vector}
    (hf : Full h pv) (hm : pv.last_index + 1 ≤ max_size) (v : T) :
    ∃ h2 pv2, push_back h pv v = some (h2, pv2) ∧ Full h2 pv2 ∧ Grown h pv h2 pv2 ∧
      pv2.last_index = pv.last_index + 1 ∧
      pv2.page_capacity = max pv.page_capacity ((pv.last_index + 1 + 63) / 64) ∧
      (∀ i : Nat, i < pv.last_index → load h2 pv2 i = load h pv i) ∧
      load h2 pv2 pv.last_index = some v ∧
      (∀ i : Nat, i < pv.page_capacity * page_size →
        subscript h2 pv2 i = subscript h pv i) := by
  have hmod : (pv.last_index + 1) % size_mod = pv.last_index + 1 :=
    Nat.mod_eq_of_lt (by
      have := hm
      simp only [max_size, int_max, page_size, size_mod, bits] at *
      omega)
  obtain ⟨h1, pv1, hrs, hf1, hg1, hli1, hc1, hold, _, hsub⟩ :=
    resize_grow_spec hf (Nat.le_succ pv.last_index) hm (default : T)
  have hidx : pv.last_index < pv1.page_capacity * page_size := by
    have := hf1.cap
    omega
  obtain ⟨h2, hst, hk, hl, hoo⟩ := store_step hf1 hidx v
  unfold push_back resize_default
  simp only [hmod, hrs, hst, Option.map_some']
  refine ⟨_, _, rfl, hf1.full_of_kept hk, ?_, hli1, hc1, ?_, hl, ?_⟩
  · have := hg1.grown_of_kept hk pv1.last_index
    exact this
  · intro i hi
    rw [hoo i (by omega)]; exact hold i hi
  · intro i hi
    rw [subscript_of_kept hk]; exact hsub i hi


theorem Full.full_empty {T : Type} (h : Heap T) : Full h paged_vector.empty where
  len := rfl
  live := by intro p hp; exact absurd hp (Nat.not_lt_zero p)
  inj := by
    intro p q a hp _
    simp [paged_vector.empty] at hp
  cap := Nat.le_refl _
  small := Nat.zero_le _

theorem Full.load_some {T : Type} {h : Heap T} {pv : paged_vector} (hf : Full h pv) {i : Nat}
    (hi : i < pv.page_capacity * page_size) :
    ∃ x a, load h pv i = some x ∧ subscript h pv i = some (a, offset i) := by
  obtain ⟨a, pg, hs, hr⟩ := hf.slot hi
  exact ⟨_, a, by rw [load_of_slot hs, hr]; rfl, by rw [subscript_of_slot hs, hr]; rfl⟩

/-- Every growth operation called within its precondition on a full container. -/
theorem GrowOp.spec {T : Type} [Inhabited T] {h : Heap T} {pv : paged_vector}
    (hf : Full h pv) (op : GrowOp T) (hp : op.pre pv) :
    ∃ h1 pv1, op.run h pv = some (h1, pv1) ∧ Full h1 pv1 ∧ Grown h pv h1 pv1 ∧
      pv.last_index ≤ pv1.last_index ∧
      (∀ i : Nat, i < pv.last_index → load h1 pv1 i = load h pv i) ∧
      (∀ i : Nat, i < pv.page_capacity * page_size →
        subscript h1 pv1 i = subscript h pv i) := by
  cases op with
  | push_back v =>
    obtain ⟨h1, pv1, hr, hf1, hg, hli, _, hold, _, hsub⟩ := push_back_spec hf hp v
    exact ⟨h1, pv1, hr, hf1, hg, by omega, hold, hsub⟩
  | reserve n =>
    obtain ⟨h1, pv1, hr, hf1, hg, hli, _, hold⟩ := reserve_spec (h := h) hf hp
    have := hf.cap
    exact ⟨h1, pv1, hr, hf1, hg, by omega, fun i hi => (hold i (by omega)).1,
      fun i hi => (hold i hi).2⟩
  | resize n v =>
    obtain ⟨h1, pv1, hr, hf1, hg, hli, _, hold, _, hsub⟩ := resize_grow_spec hf hp.1 hp.2 v
    exact ⟨h1, pv1, hr, hf1, hg, by have := hp.1; omega, hold, hsub⟩

theorem GrowBuilt.full {T : Type} [Inhabited T] {h : Heap T} {pv : paged_vector}
    (hb : GrowBuilt h pv) : Full h pv := by
  induction hb with
  | empty h => exact Full.full_empty h
  | step op _ hp hr ih =>
    obtain ⟨h2, pv2, hr2, hf2, _⟩ := GrowOp.spec ih op hp
    rw [hr] at hr2
    cases hr2
    exact hf2

/-- Pushing a list onto a full container. -/
theorem push_all_spec {T : Type} [Inhabited T] (xs : List T) :
    ∀ (h : Heap T) (pv : paged_vector), Full h pv →
      pv.last_index + xs.length ≤ max_size →
      ∃ h1 pv1, push_all h pv xs = some (h1, pv1) ∧ Full h1 pv1 ∧
        pv1.last_index = pv.last_index + xs.length ∧
        (∀ i : Nat, i < pv.last_index → load h1 pv1 i = load h pv i) ∧
        (∀ (i : Nat) (hi : i < xs.length), load h1 pv1 (pv.last_index + i) = some xs[i]) := by
  induction xs with
  | nil =>
    intro h pv hf _
    exact ⟨h, pv, rfl, hf, rfl, fun _ _ => rfl, fun i hi => absurd hi (Nat.not_lt_zero i)⟩
  | cons x xs ih =>
    intro h pv hf ho
    simp only [List.length_cons] at ho
    obtain ⟨h1, pv1, hr, hf1, _, hli, _, hold, hnew, _⟩ := push_back_spec hf (by omega) x
    obtain ⟨h2, pv2, hr2, hf2, hli2, hold2, hnew2⟩ := ih h1 pv1 hf1 (by omega)
    refine ⟨h2, pv2, ?_, hf2, ?_, ?_, ?_⟩
    · simp only [push_all, hr, Option.some_bind]; exact hr2
    · rw [hli2, hli, List.length_cons]; omega
    · intro i hi
      rw [hold2 i (by omega), hold i hi]
    · intro i hi
      cases i with
      | zero =>
        rw [Nat.add_zero, hold2 _ (by omega), hnew]; rfl
      | succ j =>
        have := hnew2 j (by simpa using hi)
        rw [hli] at this
        rw [show pv.last_index + (j + 1) = pv.last_index + 1 + j by omega, this]
        rfl


theorem Heap.read_congr {T : Type} {h h1 : Heap T} {a : Nat} (he : h1[a]? = h[a]?) :
    Heap.read h1 a = Heap.read h a := by
  unfold Heap.read
  rw [he]

theorem delete_loop_spec {T : Type} (h : Heap T) (pv : paged_vector) :
    ∀ (k start : Nat),
      (∀ i : Nat, start ≤ i → i < start + k → ∃ loc, subscript h pv i = some loc) →
      for_range (fun (_ : Unit) i => (subscript h pv i).map fun _ => ()) () start k
        = some () := by
  intro k
  induction k with
  | zero => intro start _; rfl
  | succ k ih =>
    intro start hs
    obtain ⟨loc, hloc⟩ := hs start (Nat.le_refl _) (by omega)
    rw [for_range_succ, hloc]
    simp only [Option.map_some', Option.some_bind]
    exact ih (start + 1) (fun i h1 h2 => hs i (by omega) (by omega))

theorem delete_range_spec {T : Type} {h : Heap T} {pv : paged_vector} (hf : Full h pv)
    (start stop : Nat) (hs : stop ≤ pv.page_capacity * page_size) :
    delete_range h pv start stop = some () := by
  unfold delete_range
  apply delete_loop_spec
  intro i _ hi
  obtain ⟨x, a, _, hsub⟩ := hf.load_some (show i < pv.page_capacity * page_size by omega)
  exact ⟨_, hsub⟩

/-- The loop of `resize_pages` that destroys the pages of the slots `i .. i + k - 1`, when
these slots hold different allocated pages. -/
theorem destroy_loop_spec {T : Type} (li c : Nat) :
    ∀ (k i : Nat) (h : Heap T) (tab : List (Option Nat)), i + k ≤ tab.length →
      (∀ p : Nat, i ≤ p → p < i + k →
        ∃ a pg, tab[p]? = some (some a) ∧ Heap.read h a = some pg) →
      (∀ p q a : Nat, tab[p]? = some (some a) → tab[q]? = some (some a) → p = q) →
      ∃ h1 tab1, for_range destroy_page (h, (⟨li, tab, c⟩ : paged_vector)) i k
          = some (h1, ⟨li, tab1, c⟩) ∧
        tab1.length = tab.length ∧ h1.length = h.length ∧
        (∀ p : Nat, (p < i ∨ i + k ≤ p) → tab1[p]? = tab[p]?) ∧
        (∀ p : Nat, i ≤ p → p < i + k → tab1[p]? = some none) ∧
        (∀ a : Nat, (∀ p : Nat, i ≤ p → p < i + k → tab[p]? ≠ some (some a)) →
          h1[a]? = h[a]?) ∧
        (∀ p a : Nat, i ≤ p → p < i + k → tab[p]? = some (some a) →
          h1[a]? = some none) := by
  intro k
  induction k with
  | zero =>
    intro i h tab _ _ _
    exact ⟨h, tab, rfl, rfl, rfl, fun _ _ => rfl, fun p h1 h2 => absurd h2 (by omega),
      fun _ _ => rfl, fun p a h1 h2 => absurd h2 (by omega)⟩
  | succ k ih =>
    intro i h tab hlen hlive hinj
    obtain ⟨a, pg, hs, hr⟩ := hlive i (Nat.le_refl _) (by omega)
    have ha := Heap.read_lt hr
    have hstep : destroy_page (h, (⟨li, tab, c⟩ : paged_vector)) i
        = some (h.set a none, ⟨li, tab.set i none, c⟩) := by
      simp [destroy_page, hs, hr]
    have hti : (tab.set i none)[i]? = some none := by
      rw [List.getElem?_set, if_pos rfl, if_pos (by omega)]
    have htne : ∀ p : Nat, p ≠ i → (tab.set i none)[p]? = tab[p]? := by
      intro p hp
      rw [List.getElem?_set_ne (Ne.symm hp)]
    have hsome : ∀ p x : Nat, (tab.set i none)[p]? = some (some x) →
        p ≠ i ∧ tab[p]? = some (some x) := by
      intro p x hp
      have hpi : p ≠ i := by
        intro he; subst he; rw [hti] at hp; cases hp
      exact ⟨hpi, by rw [← htne p hpi]; exact hp⟩
    obtain ⟨h1, tab1, hrun, hl1, hl2, hout, hin, hframe, hdead⟩ :=
      ih (i + 1) (h.set a none) (tab.set i none) (by simp; omega)
        (by
          intro p hp1 hp2
          obtain ⟨b, pgb, hsb, hrb⟩ := hlive p (by omega) (by omega)
          have hab : a ≠ b := by
            intro he; subst he
            have := hinj _ _ _ hs hsb
            omega
          exact ⟨b, pgb, by rw [htne p (by omega)]; exact hsb,
            by rw [Heap.read_set_ne _ _ hab]; exact hrb⟩)
        (by
          intro p q x hp hq
          exact hinj p q x (hsome p x hp).2 (hsome q x hq).2)
    refine ⟨h1, tab1, ?_, ?_, ?_, ?_, ?_, ?_, ?_⟩
    · rw [for_range_succ, hstep, Option.some_bind]; exact hrun
    · rw [hl1]; simp
    · rw [hl2]; simp
    · intro p hp
      rw [hout p (by omega), htne p (by omega)]
    · intro p hp1 hp2
      by_cases hpi : p = i
      · subst hpi
        rw [hout p (Or.inl (by omega)), hti]
      · exact hin p (by omega) (by omega)
    · intro x hx
      have hxa : a ≠ x := by
        intro he; subst he
        exact hx i (Nat.le_refl _) (by omega) hs
      rw [hframe x (by
        intro p hp1 hp2 hp
        exact hx p (by omega) (by omega) (hsome p x hp).2)]
      exact List.getElem?_set_ne hxa
    · intro p x hp1 hp2 hp
      by_cases hpi : p = i
      · subst hpi
        rw [hs] at hp
        cases hp
        rw [hframe a (by
          intro q hq1 hq2 hq
          have := hinj _ _ _ hs (hsome q a hq).2
          omega)]
        rw [List.getElem?_set, if_pos rfl, if_pos ha]
      · exact hdead p x (by omega) (by omega) (by rw [htne p hpi]; exact hp)


theorem resize_pages_shrink {T : Type} [Inhabited T] (h : Heap T) (pv : paged_vector)
    {N : Nat} (hN : N ≤ pv.page_capacity) (hnp : num_pages pv ≤ pv.page_capacity) :
    resize_pages h pv N
      = if N < num_pages pv then for_range destroy_page (h, pv) N (num_pages pv - N)
        else some (h, pv) := by
  unfold resize_pages
  by_cases h1 : N < pv.page_capacity
  · rw [if_pos h1]
  · rw [if_neg h1, if_neg (by omega), if_neg (by omega)]

theorem resize_shrink_unfold {T : Type} [Inhabited T] (h : Heap T) (pv : paged_vector)
    {n : Nat} (hn : n < pv.last_index) (ho : n + (page_size - 1) < size_mod) (v : T)
    (hdr : delete_range h pv n pv.last_index = some ()) :
    resize h pv n v
      = (resize_pages h pv ((n + 63) / 64)).map fun s =>
          (s.1, ⟨n, s.2.page_array, s.2.page_capacity⟩) := by
  unfold resize
  simp only [if_pos hn, hdr, page_divide_ceil_eq n ho, if_neg (Nat.lt_asymm hn)]
  cases resize_pages h pv ((n + 63) / 64) with
  | none => rfl
  | some s => rfl

/-- Source `resize(size, value)` to a size below the current one, on a full container: the
pages of the slots `ceil(size / 64) .. last_index / 64 - 1` are destroyed and nothing else
changes but `last_index`. -/
theorem resize_shrink_spec {T : Type} [Inhabited T] {h : Heap T} {pv : paged_vector}
    (hf : Full h pv) {n : Nat} (hn : n < pv.last_index) (v : T) :
    ∃ h1 tab1, resize h pv n v = some (h1, ⟨n, tab1, pv.page_capacity⟩) ∧
      tab1.length = pv.page_array.length ∧ h1.length = h.length ∧
      (∀ p : Nat, (p < (n + 63) / 64 ∨ pv.last_index / 64 ≤ p) →
        tab1[p]? = pv.page_array[p]?) ∧
      (∀ p : Nat, (n + 63) / 64 ≤ p → p < pv.last_index / 64 → tab1[p]? = some none) ∧
      (∀ a : Nat, (∀ p : Nat, (n + 63) / 64 ≤ p → p < pv.last_index / 64 →
          pv.page_array[p]? ≠ some (some a)) → h1[a]? = h[a]?) ∧
      (∀ p a : Nat, (n + 63) / 64 ≤ p → p < pv.last_index / 64 →
        pv.page_array[p]? = some (some a) → h1[a]? = some none) := by
  have hcap := hf.cap
  rw [page_size_eq] at hcap
  have ho : n + (page_size - 1) < size_mod := by
    have := hf.small
    simp only [int_max, page_size, size_mod, bits] at *
    omega
  have hdr := delete_range_spec hf n pv.last_index hf.cap
  have hnp := num_pages_eq pv
  have hNc : (n + 63) / 64 ≤ pv.page_capacity := by omega
  have hnpc : num_pages pv ≤ pv.page_capacity := by omega
  rw [resize_shrink_unfold h pv hn ho v hdr, resize_pages_shrink h pv hNc hnpc, hnp]
  by_cases hd : (n + 63) / 64 < pv.last_index / 64
  · obtain ⟨h1, tab1, hrun, hl1, hl2, hout, hin, hframe, hdead⟩ :=
      destroy_loop_spec pv.last_index pv.page_capacity (pv.last_index / 64 - (n + 63) / 64)
        ((n + 63) / 64) h pv.page_array
        (by rw [hf.len]; omega)
        (by
          intro p _ hp2
          exact hf.live p (by omega))
        hf.inj
    have hstop : (n + 63) / 64 + (pv.last_index / 64 - (n + 63) / 64)
        = pv.last_index / 64 := by omega
    rw [hstop] at hout hin hframe hdead
    rw [if_pos hd, hrun]
    exact ⟨h1, tab1, rfl, hl1, hl2, hout, hin, hframe, hdead⟩
  · rw [if_neg hd]
    exact ⟨h, pv.page_array, rfl, rfl, rfl, fun _ _ => rfl,
      fun p h1 h2 => absurd h2 (by omega), fun _ _ => rfl,
      fun p a h1 h2 => absurd h2 (by omega)⟩

theorem for_range_inv {σ : Type} (body : σ → Nat → Option σ) (P : σ → Prop)
    (hbody : ∀ (s : σ) (i : Nat) (s1 : σ), P s → body s i = some s1 → P s1) :
    ∀ (k : Nat) (s : σ) (i : Nat) (s1 : σ), P s → for_range body s i k = some s1 →
      P s1 := by
  intro k
  induction k with
  | zero =>
    intro s i s1 hp hr
    cases hr
    exact hp
  | succ k ih =>
    intro s i s1 hp hr
    rw [for_range_succ] at hr
    cases hb : body s i with
    | none => rw [hb] at hr; cases hr
    | some s2 =>
      rw [hb, Option.some_bind] at hr
      exact ih s2 (i + 1) s1 (hbody s i s2 hp hb) hr

theorem destroy_page_fields {T : Type} {s s1 : Heap T × paged_vector} {i : Nat}
    (hr : destroy_page s i = some s1) :
    s1.2.last_index = s.2.last_index ∧ s1.2.page_capacity = s.2.page_capacity := by
  unfold destroy_page at hr
  split at hr
  · cases hr
  · cases hr; exact ⟨rfl, rfl⟩
  · split at hr
    · cases hr
    · cases hr; exact ⟨rfl, rfl⟩

theorem create_page_fields {T : Type} [Inhabited T] {s s1 : Heap T × paged_vector} {i : Nat}
    (hr : create_page s i = some s1) :
    s1.2.last_index = s.2.last_index ∧ s1.2.page_capacity = s.2.page_capacity := by
  unfold create_page at hr
  split at hr
  · cases hr; exact ⟨rfl, rfl⟩
  · cases hr

/-- Source `resize_pages` never changes `last_index`, and leaves `page_capacity` at the larger of
its old value and the requested page count. -/
theorem resize_pages_fields {T : Type} [Inhabited T] {h h1 : Heap T} {pv pv1 : paged_vector}
    {N : Nat} (hr : resize_pages h pv N = some (h1, pv1)) :
    pv1.last_index = pv.last_index ∧ pv1.page_capacity = max pv.page_capacity N := by
  unfold resize_pages at hr
  by_cases h1c : N < pv.page_capacity
  · rw [if_pos h1c] at hr
    by_cases h2 : N < num_pages pv
    · rw [if_pos h2] at hr
      have := for_range_inv destroy_page
        (fun s => s.2.last_index = pv.last_index ∧ s.2.page_capacity = pv.page_capacity)
        (fun s i s1 hp hs => by
          obtain ⟨e1, e2⟩ := destroy_page_fields hs
          exact ⟨e1.trans hp.1, e2.trans hp.2⟩)
        _ _ _ _ ⟨rfl, rfl⟩ hr
      exact ⟨this.1, by rw [this.2]; omega⟩
    · rw [if_neg h2] at hr
      cases hr
      exact ⟨rfl, by omega⟩
  · rw [if_neg h1c] at hr
    by_cases h2 : N > pv.page_capacity
    · rw [if_pos h2] at hr
      split at hr
      · cases hr
      · rename_i new_array _
        split at hr
        · cases hr
        · rename_i h2' pv2 hcr
          cases hr
          have := for_range_inv create_page
            (fun s => s.2.last_index = pv.last_index ∧ s.2.page_capacity = pv.page_capacity)
            (fun s i s1 hp hs => by
              obtain ⟨e1, e2⟩ := create_page_fields hs
              exact ⟨e1.trans hp.1, e2.trans hp.2⟩)
            _ _ _ _ ⟨rfl, rfl⟩ hcr
          exact ⟨this.1, by simp only; omega⟩
    · rw [if_neg h2] at hr
      cases hr
      exact ⟨rfl, by omega⟩

/-- Source `resize(size, value)`, whenever it is defined: the new `last_index` and
`page_capacity`. -/
theorem resize_fields {T : Type} [Inhabited T] {h h1 : Heap T} {pv pv1 : paged_vector}
    {n : Nat} {v : T} (ho : n + (page_size - 1) < size_mod)
    (hr : resize h pv n v = some (h1, pv1)) :
    pv1.last_index = n ∧ pv1.page_capacity = max pv.page_capacity ((n + 63) / 64) := by
  unfold resize at hr
  simp only [page_divide_ceil_eq n ho] at hr
  split at hr
  · cases hr
  · split at hr
    · cases hr
    · rename_i h2 pv2 hrp
      obtain ⟨_, hc⟩ := resize_pages_fields hrp
      split at hr
      · cases hr
      · cases hr
        exact ⟨rfl, hc⟩


theorem Sized.sized_empty : Sized paged_vector.empty := by
  unfold Sized paged_vector.empty
  decide

theorem Sized.zero : Sized ⟨0, [], 0⟩ := Sized.sized_empty

theorem Sized.of_resize {T : Type} [Inhabited T] {h h1 : Heap T} {pv pv1 : paged_vector}
    {n : Nat} {v : T} (ho : n + (page_size - 1) < size_mod)
    (hr : resize h pv n v = some (h1, pv1)) : Sized pv1 := by
  obtain ⟨hl, hc⟩ := resize_fields ho hr
  unfold Sized
  rw [hl, hc, page_size_eq]
  refine ⟨?_, ho⟩
  have h1 : n ≤ (n + 63) / 64 * 64 := by omega
  have h2 : (n + 63) / 64 ≤ max pv.page_capacity ((n + 63) / 64) := Nat.le_max_right _ _
  nlinarith

theorem Sized.of_reserve {T : Type} [Inhabited T] {h h1 : Heap T} {pv pv1 : paged_vector}
    {n : Nat} (hs : Sized pv) (hr : reserve h pv n = some (h1, pv1)) : Sized pv1 := by
  unfold reserve at hr
  split at hr
  · obtain ⟨hl, hc⟩ := resize_pages_fields hr
    unfold Sized at hs ⊢
    rw [hl, hc]
    refine ⟨?_, hs.2⟩
    have h2 : pv.page_capacity ≤ max pv.page_capacity (page_divide_ceil n) :=
      Nat.le_max_left _ _
    have := hs.1
    rw [page_size_eq] at *
    nlinarith
  · cases hr; exact hs

theorem Sized.of_push_back {T : Type} [Inhabited T] {h h1 : Heap T} {pv pv1 : paged_vector}
    {v : T} (ho : pv.last_index + 1 + (page_size - 1) < size_mod)
    (hr : push_back h pv v = some (h1, pv1)) : Sized pv1 := by
  unfold push_back resize_default at hr
  have hmod : (pv.last_index + 1) % size_mod = pv.last_index + 1 :=
    Nat.mod_eq_of_lt (by omega)
  rw [hmod] at hr
  split at hr
  · cases hr
  · rename_i h2 pv2 hrs
    have := Sized.of_resize ho hrs
    simp only at hr
    cases hst : store h2 pv2 pv.last_index v with
    | none => rw [hst] at hr; cases hr
    | some h3 =>
      rw [hst] at hr
      cases hr
      exact this

theorem Sized.of_pop_back {T : Type} [Inhabited T] {h h1 : Heap T} {pv pv1 : paged_vector}
    (hs : Sized pv) (hpos : 0 < pv.last_index)
    (hr : pop_back h pv = some (h1, pv1)) : Sized pv1 := by
  unfold pop_back resize_default at hr
  have hb := hs.2
  have hmod : (pv.last_index + size_mod - 1) % size_mod = pv.last_index - 1 := by
    have h1 : pv.last_index + size_mod - 1 = (pv.last_index - 1) + size_mod := by omega
    rw [h1, Nat.add_mod_right, Nat.mod_eq_of_lt (by omega)]
  rw [hmod] at hr
  exact Sized.of_resize (by omega) hr

theorem Sized.of_clear {T : Type} {h h1 : Heap T} {pv pv1 : paged_vector}
    (hr : clear h pv = some (h1, pv1)) : Sized pv1 := by
  unfold clear at hr
  split at hr
  · cases hr
  · cases hr; exact Sized.zero

theorem System.on_eq_some {T : Type} {s s1 : System T} {i : Nat}
    {f : Heap T → paged_vector → Option (Heap T × paged_vector)}
    (hr : s.on i f = some s1) :
    ∃ pv r, s.objs[i]? = some pv ∧ f s.heap pv = some r ∧
      s1 = ⟨r.1, s.objs.set i r.2⟩ := by
  unfold System.on at hr
  split at hr
  · cases hr
  · rename_i pv hpv
    cases hf : f s.heap pv with
    | none => rw [hf] at hr; cases hr
    | some r =>
      rw [hf] at hr
      cases hr
      exact ⟨pv, r, hpv, hf, rfl⟩

/-- An operation on one object that leaves it `Sized` keeps every object `Sized`. -/
theorem System.on_sized {T : Type} {s s1 : System T} {i : Nat}
    {f : Heap T → paged_vector → Option (Heap T × paged_vector)}
    (hall : ∀ pv ∈ s.objs, Sized pv)
    (hf : ∀ pv r, s.objs[i]? = some pv → Sized pv → f s.heap pv = some r → Sized r.2)
    (hr : s.on i f = some s1) : ∀ pv ∈ s1.objs, Sized pv := by
  obtain ⟨pv, r, hpv, hfr, rfl⟩ := System.on_eq_some hr
  intro q hq
  rcases List.mem_or_eq_of_mem_set hq with hq | hq
  · exact hall q hq
  · rw [hq]
    exact hf pv r hpv (hall pv (List.getElem?_mem hpv)) hfr

theorem getD_of_getElem? {l : List paged_vector} {i : Nat} {pv : paged_vector}
    (h : l[i]? = some pv) : l.getD i paged_vector.empty = pv := by
  simp [List.getD, h]

/-- One public operation called within its precondition keeps every object `Sized`. -/
theorem System.step_sized {T : Type} [Inhabited T] {s s1 : System T} (op : Op T)
    (hall : ∀ pv ∈ s.objs, Sized pv) (hp : s.pre op) (hr : s.step op = some s1) :
    ∀ pv ∈ s1.objs, Sized pv := by
  cases op with
  | construct =>
    simp only [System.step] at hr
    cases hr
    intro q hq
    rcases List.mem_append.mp hq with hq | hq
    · exact hall q hq
    · rw [List.mem_singleton.mp hq]; exact Sized.sized_empty
  | copy_construct src =>
    simp only [System.step] at hr
    split at hr
    · cases hr
    · rename_i other hother
      have hso := hall other (List.getElem?_mem hother)
      cases hcc : copy_construct s.heap other with
      | none => rw [hcc] at hr; cases hr
      | some r =>
        rw [hcc] at hr
        cases hr
        have hsr : Sized r.2 := by
          unfold copy_construct copy_assign resize_default at hcc
          split at hcc
          · cases hcc
          · rename_i h2 this1 hrs
            cases hae : assign_elements h2 this1 other with
            | none => rw [hae] at hcc; cases hcc
            | some h3 =>
              rw [hae] at hcc
              cases hcc
              exact Sized.of_resize hso.2 hrs
        intro q hq
        rcases List.mem_append.mp hq with hq | hq
        · exact hall q hq
        · rw [List.mem_singleton.mp hq]; exact hsr
  | move_construct src =>
    simp only [System.step] at hr
    split at hr
    · cases hr
    · rename_i other hother
      have hso := hall other (List.getElem?_mem hother)
      cases hr
      intro q hq
      rcases List.mem_append.mp hq with hq | hq
      · rcases List.mem_or_eq_of_mem_set hq with hq | hq
        · exact hall q hq
        · rw [hq]; exact Sized.zero
      · rw [List.mem_singleton.mp hq]; exact hso
  | copy_assign dst src =>
    simp only [System.step] at hr
    split at hr
    · cases hr
    · rename_i other hother
      have hso := hall other (List.getElem?_mem hother)
      split at hr
      · cases hr
      · rename_i s2 hon
        have h2 : ∀ pv ∈ s2.objs, Sized pv :=
          System.on_sized hall
          (fun pv r _ _ hfr =>
            @Sized.of_resize T _ s.heap r.1 pv r.2 other.last_index default hso.2 hfr) hon
        split at hr
        · rename_i this1 other1 _ _
          cases hae : assign_elements s2.heap this1 other1 with
          | none => rw [hae] at hr; cases hr
          | some h3 =>
            rw [hae] at hr
            cases hr
            exact h2
        · cases hr
  | move_assign dst src =>
    simp only [System.step] at hr
    split at hr
    · cases hr
    · rename_i s2 hon
      have h2 : ∀ pv ∈ s2.objs, Sized pv :=
        System.on_sized hall
          (fun pv r _ _ hfr => @Sized.of_clear T s.heap r.1 pv r.2 hfr) hon
      split at hr
      · cases hr
      · rename_i other hother
        have hso := h2 other (List.getElem?_mem hother)
        cases hr
        intro q hq
        rcases List.mem_or_eq_of_mem_set hq with hq | hq
        · rcases List.mem_or_eq_of_mem_set hq with hq | hq
          · exact h2 q hq
          · rw [hq]; exact hso
        · rw [hq]; exact Sized.zero
  | reserve i n =>
    simp only [System.step] at hr
    exact System.on_sized hall
      (fun pv r _ hs hfr => @Sized.of_reserve T _ s.heap r.1 pv r.2 n hs hfr) hr
  | resize i n v =>
    simp only [System.step] at hr
    exact System.on_sized hall
      (fun pv r _ _ hfr => @Sized.of_resize T _ s.heap r.1 pv r.2 n v hp hfr) hr
  | push_back i v =>
    simp only [System.step] at hr
    refine System.on_sized hall (fun pv r hpv _ hfr => ?_) hr
    simp only [System.pre, getD_of_getElem? hpv] at hp
    exact @Sized.of_push_back T _ s.heap r.1 pv r.2 v hp hfr
  | pop_back i =>
    simp only [System.step] at hr
    refine System.on_sized hall (fun pv r hpv hs hfr => ?_) hr
    simp only [System.pre, getD_of_getElem? hpv] at hp
    exact @Sized.of_pop_back T _ s.heap r.1 pv r.2 hs hp hfr
  | clear i =>
    simp only [System.step] at hr
    exact System.on_sized hall
      (fun pv r _ _ hfr => @Sized.of_clear T s.heap r.1 pv r.2 hfr) hr
  | assign i idx v =>
    simp only [System.step] at hr
    refine System.on_sized hall (fun pv r _ hs hfr => ?_) hr
    cases hst : store s.heap pv idx v with
    | none => rw [hst] at hfr; cases hfr
    | some h1 =>
      rw [hst] at hfr
      cases hfr
      exact hs

theorem Reachable.sized {T : Type} [Inhabited T] {s : System T} (hr : Reachable s) :
    ∀ pv ∈ s.objs, Sized pv := by
  induction hr with
  | init => intro pv hpv; cases hpv
  | step op _ hp hs ih => exact System.step_sized op ih hp hs

theorem Reachable.of_run {T : Type} [Inhabited T] (ops : List (Op T)) :
    ∀ (s s1 : System T), Reachable s → System.run ops s = some s1 → Reachable s1 := by
  induction ops with
  | nil =>
    intro s s1 hs hr
    cases hr
    exact hs
  | cons op ops ih =>
    intro s s1 hs hr
    simp only [System.run] at hr
    split at hr
    · rename_i hp
      cases hst : s.step op with
      | none => rw [hst] at hr; cases hr
      | some s2 =>
        rw [hst, Option.some_bind] at hr
        exact ih s2 s1 (Reachable.step op hs hp hst) hr
    · cases hr


theorem sample_built : GrowBuilt sample_heap sample_vec :=
  @GrowBuilt.step Int _ sample_heap1 sample_heap sample_vec1 sample_vec (GrowOp.push_back 6)
    (@GrowBuilt.step Int _ [] sample_heap1 paged_vector.empty sample_vec1 (GrowOp.push_back 4)
      (GrowBuilt.empty []) (by decide) rfl)
    (by decide) rfl

theorem sample_reachable : Reachable (⟨sample_heap, [sample_vec]⟩ : System Int) :=
  @Reachable.step Int _ ⟨sample_heap1, [sample_vec1]⟩ ⟨sample_heap, [sample_vec]⟩
    (Op.push_back 0 6)
    (@Reachable.step Int _ ⟨[], [paged_vector.empty]⟩ ⟨sample_heap1, [sample_vec1]⟩
      (Op.push_back 0 4)
      (@Reachable.step Int _ ⟨[], []⟩ ⟨[], [paged_vector.empty]⟩ Op.construct
        Reachable.init True.intro rfl)
      (by decide) rfl)
    (by decide) rfl


theorem as_int_of_range {x : Int} (h1 : int_min ≤ x) (h2 : x ≤ (int_max : Int)) :
    as_int x = some x := by
  unfold as_int
  rw [if_pos ⟨h1, h2⟩]

theorem to_int_of_le {n : Nat} (h : n ≤ int_max) : to_int n = (n : Int) := by
  unfold to_int
  have h1 : n % 2 ^ 32 = n := Nat.mod_eq_of_lt (by simp only [int_max] at h; omega)
  rw [h1, if_pos (by simp only [int_max] at h; omega)]

theorem to_size_of_nat (k : Nat) (h : k < size_mod) : to_size (k : Int) = k := by
  unfold to_size
  have : ((k : Int) % (size_mod : Int)) = (k : Int) := by
    apply Int.emod_eq_of_lt (by omega)
    exact_mod_cast h
  rw [this]
  simp

/-- The loop from the iterator at index `k` to `end()` visits the indices `k .. size() - 1`
in order. -/
theorem traverse_from (o n : Nat) (hn : n ≤ int_max) :
    ∀ (d k fuel : Nat), k + d = n → d < fuel →
      traverse ⟨(n : Int), o⟩ fuel ⟨(k : Int), o⟩
        = some ((List.range' k d).map fun (j : Nat) => (⟨(j : Int), o⟩ : iterator)) := by
  intro d
  induction d with
  | zero =>
    intro k fuel hk hf
    obtain ⟨f, rfl⟩ : ∃ f, fuel = f + 1 := ⟨fuel - 1, by omega⟩
    have : k = n := by omega
    subst this
    simp [traverse, iterator.ne, iterator.eq]
  | succ d ih =>
    intro k fuel hk hf
    obtain ⟨f, rfl⟩ : ∃ f, fuel = f + 1 := ⟨fuel - 1, by omega⟩
    have hne : (⟨(k : Int), o⟩ : iterator).ne ⟨(n : Int), o⟩ = true := by
      simp [iterator.ne, iterator.eq]
      omega
    have hinc : (⟨(k : Int), o⟩ : iterator).pre_inc = some ⟨((k + 1 : Nat) : Int), o⟩ := by
      unfold iterator.pre_inc
      rw [as_int_of_range (by simp only [int_min]; omega)
        (by simp only [int_max] at hn ⊢; omega)]
      simp
    rw [traverse, if_pos hne, hinc, Option.some_bind, ih (k + 1) f (by omega) (by omega)]
    simp [List.range'_succ]

theorem iterator.eq_self (it : iterator) : it.eq it = true := by
  simp [iterator.eq]

/-- One assignment through `operator[]` when the table slots below `P` hold different
allocated pages. -/
theorem store_read {T : Type} {pv : paged_vector} {h : Heap T} (P : Nat)
    (hlive : ∀ p : Nat, p < P →
      ∃ a pg, pv.page_array[p]? = some (some a) ∧ Heap.read h a = some pg)
    (hinj : ∀ p q a : Nat,
      pv.page_array[p]? = some (some a) → pv.page_array[q]? = some (some a) → p = q)
    {i : Nat} (hi : i < P * page_size) (v : T) :
    ∃ h1, store h pv i v = some h1 ∧ Kept pv h h1 ∧ load h1 pv i = some v ∧
      ∀ j : Nat, j ≠ i → load h1 pv j = load h pv j := by
  have hp : i >>> bits < P := by
    rw [shr_bits]
    rw [page_size_eq] at hi
    exact Nat.div_lt_of_lt_mul (by omega)
  obtain ⟨a, pg, hs, hr⟩ := hlive _ hp
  have ha := Heap.read_lt hr
  refine ⟨_, store_spec v hs hr, ⟨?_, ?_, ?_⟩, ?_, ?_⟩
  · simp
  · intro b
    by_cases hab : a = b
    · subst hab
      rw [Heap.read_set_eq _ ha, hr]; rfl
    · rw [Heap.read_set_ne _ _ hab]
  · intro b hb
    have hab : a ≠ b := by
      intro hab; subst hab; exact hb _ hs
    rw [List.getElem?_set_ne hab]
  · rw [load_of_slot hs, Heap.read_set_eq _ ha]
    simp
  · intro j hj
    cases hsj : pv.page_array[j >>> bits]? with
    | none =>
      rw [load_of_no_slot (by intro a; rw [hsj]; simp),
        load_of_no_slot (by intro a; rw [hsj]; simp)]
    | some o =>
      cases o with
      | none =>
        rw [load_of_no_slot (by intro a; rw [hsj]; simp),
          load_of_no_slot (by intro a; rw [hsj]; simp)]
      | some b =>
        rw [load_of_slot hsj, load_of_slot hsj]
        by_cases hab : a = b
        · subst hab
          have hpq : j >>> bits = i >>> bits := hinj _ _ _ hsj hs
          have hoff : offset j ≠ offset i := offset_ne hj hpq
          rw [Heap.read_set_eq _ ha, hr]
          simp [Function.update_noteq hoff]
        · rw [Heap.read_set_ne _ _ hab]

theorem load_some_of_live {T : Type} {pv : paged_vector} {h : Heap T} (P : Nat)
    (hlive : ∀ p : Nat, p < P →
      ∃ a pg, pv.page_array[p]? = some (some a) ∧ Heap.read h a = some pg)
    {i : Nat} (hi : i < P * page_size) : ∃ x, load h pv i = some x := by
  have hp : i >>> bits < P := by
    rw [shr_bits]
    rw [page_size_eq] at hi
    exact Nat.div_lt_of_lt_mul (by omega)
  obtain ⟨a, pg, hs, hr⟩ := hlive _ hp
  exact ⟨_, by rw [load_of_slot hs, hr]; rfl⟩

theorem Full.valid {T : Type} {h : Heap T} {pv : paged_vector} (hf : Full h pv) :
    Valid h pv where
  len := hf.len
  live := by
    intro p a hs
    have hp : p < pv.page_capacity := by
      rw [← hf.len]
      by_contra hc
      rw [List.getElem?_eq_none (by omega)] at hs
      cases hs
    obtain ⟨a1, pg, hs1, hr⟩ := hf.live p hp
    rw [hs] at hs1
    cases hs1
    exact ⟨pg, hr⟩
  inj := hf.inj
  small := hf.small

/-- The loop destroying the slots `i .. i + k - 1` of a table whose non-null entries are
different allocated pages: the pages of these slots are released, the slots are null, and
nothing else changes. -/
theorem destroy_loop_valid {T : Type} (li c : Nat) :
    ∀ (k i : Nat) (h : Heap T) (tab : List (Option Nat)), i + k ≤ tab.length →
      (∀ p a : Nat, tab[p]? = some (some a) → ∃ pg, Heap.read h a = some pg) →
      (∀ p q a : Nat, tab[p]? = some (some a) → tab[q]? = some (some a) → p = q) →
      ∃ h1 tab1, for_range destroy_page (h, (⟨li, tab, c⟩ : paged_vector)) i k
          = some (h1, ⟨li, tab1, c⟩) ∧
        tab1.length = tab.length ∧ h1.length = h.length ∧
        (∀ p : Nat, (p < i ∨ i + k ≤ p) → tab1[p]? = tab[p]?) ∧
        (∀ p : Nat, i ≤ p → p < i + k → tab1[p]? = some none) ∧
        (∀ a : Nat, (∀ p : Nat, i ≤ p → p < i + k → tab[p]? ≠ some (some a)) →
          h1[a]? = h[a]?) ∧
        (∀ p a : Nat, i ≤ p → p < i + k → tab[p]? = some (some a) →
          h1[a]? = some none) := by
  intro k
  induction k with
  | zero =>
    intro i h tab _ _ _
    exact ⟨h, tab, rfl, rfl, rfl, fun _ _ => rfl, fun p h1 h2 => absurd h2 (by omega),
      fun _ _ => rfl, fun p a h1 h2 => absurd h2 (by omega)⟩
  | succ k ih =>
    intro i h tab hlen hlive hinj
    have hti : (tab.set i none)[i]? = some none := by
      rw [List.getElem?_set, if_pos rfl, if_pos (by omega)]
    have htne : ∀ p : Nat, p ≠ i → (tab.set i none)[p]? = tab[p]? := by
      intro p hp
      rw [List.getElem?_set_ne (Ne.symm hp)]
    have hsome : ∀ p x : Nat, (tab.set i none)[p]? = some (some x) →
        p ≠ i ∧ tab[p]? = some (some x) := by
      intro p x hp
      have hpi : p ≠ i := by
        intro he; subst he; rw [hti] at hp; cases hp
      exact ⟨hpi, by rw [← htne p hpi]; exact hp⟩
    have hget : tab[i]? = some tab[i] := List.getElem?_eq_getElem (by omega)
    cases hslot : tab[i] with
    | none =>
      have hs : tab[i]? = some none := by rw [hget, hslot]
      have hstep : destroy_page (h, (⟨li, tab, c⟩ : paged_vector)) i
          = some (h, ⟨li, tab.set i none, c⟩) := by
        simp [destroy_page, hs]
      obtain ⟨h1, tab1, hrun, hl1, hl2, hout, hin, hframe, hdead⟩ :=
        ih (i + 1) h (tab.set i none) (by simp; omega)
          (fun p a hp => hlive p a (hsome p a hp).2)
          (fun p q x hp hq => hinj p q x (hsome p x hp).2 (hsome q x hq).2)
      refine ⟨h1, tab1, ?_, ?_, hl2, ?_, ?_, ?_, ?_⟩
      · rw [for_range_succ, hstep, Option.some_bind]; exact hrun
      · rw [hl1]; simp
      · intro p hp
        rw [hout p (by omega), htne p (by omega)]
      · intro p hp1 hp2
        by_cases hpi : p = i
        · subst hpi
          rw [hout p (Or.inl (by omega)), hti]
        · exact hin p (by omega) (by omega)
      · intro x hx
        exact hframe x (fun p hp1 hp2 hp => hx p (by omega) (by omega) (hsome p x hp).2)
      · intro p x hp1 hp2 hp
        by_cases hpi : p = i
        · subst hpi
          rw [hs] at hp
          cases hp
        · exact hdead p x (by omega) (by omega) (by rw [htne p hpi]; exact hp)
    | some a =>
      have hs : tab[i]? = some (some a) := by rw [hget, hslot]
      obtain ⟨pg, hr⟩ := hlive i a hs
      have ha := Heap.read_lt hr
      have hstep : destroy_page (h, (⟨li, tab, c⟩ : paged_vector)) i
          = some (h.set a none, ⟨li, tab.set i none, c⟩) := by
        simp [destroy_page, hs, hr]
      obtain ⟨h1, tab1, hrun, hl1, hl2, hout, hin, hframe, hdead⟩ :=
        ih (i + 1) (h.set a none) (tab.set i none) (by simp; omega)
          (by
            intro p b hp
            obtain ⟨hpi, hpb⟩ := hsome p b hp
            obtain ⟨pgb, hrb⟩ := hlive p b hpb
            have hab : a ≠ b := by
              intro he; subst he
              exact hpi (hinj _ _ _ hpb hs)
            exact ⟨pgb, by rw [Heap.read_set_ne _ _ hab]; exact hrb⟩)
          (fun p q x hp hq => hinj p q x (hsome p x hp).2 (hsome q x hq).2)
      refine ⟨h1, tab1, ?_, ?_, ?_, ?_, ?_, ?_, ?_⟩
      · rw [for_range_succ, hstep, Option.some_bind]; exact hrun
      · rw [hl1]; simp
      · rw [hl2]; simp
      · intro p hp
        rw [hout p (by omega), htne p (by omega)]
      · intro p hp1 hp2
        by_cases hpi : p = i
        · subst hpi
          rw [hout p (Or.inl (by omega)), hti]
        · exact hin p (by omega) (by omega)
      · intro x hx
        have hxa : a ≠ x := by
          intro he; subst he
          exact hx i (Nat.le_refl _) (by omega) hs
        rw [hframe x (fun p hp1 hp2 hp => hx p (by omega) (by omega) (hsome p x hp).2)]
        exact List.getElem?_set_ne hxa
      · intro p x hp1 hp2 hp
        by_cases hpi : p = i
        · subst hpi
          rw [hs] at hp
          cases hp
          rw [hframe a (by
            intro q hq1 hq2 hq
            have := hinj _ _ _ hs (hsome q a hq).2
            omega)]
          rw [List.getElem?_set, if_pos rfl, if_pos ha]
        · exact hdead p x (by omega) (by omega) (by rw [htne p hpi]; exact hp)

/-- Source `clear()` on a well-formed container. -/
theorem clear_spec {T : Type} {h : Heap T} {pv : paged_vector} (hv : Valid h pv) :
    ∃ h1, clear h pv = some (h1, ⟨0, [], 0⟩) ∧ h1.length = h.length ∧
      (∀ a : Nat, (∀ p : Nat, pv.page_array[p]? ≠ some (some a)) → h1[a]? = h[a]?) ∧
      (∀ p a : Nat, pv.page_array[p]? = some (some a) → h1[a]? = some none) := by
  unfold clear
  by_cases hnil : pv.page_array = []
  · rw [if_neg (by simp [hnil])]
    refine ⟨h, rfl, rfl, fun _ _ => rfl, ?_⟩
    intro p a hs
    rw [hnil] at hs
    simp at hs
  · rw [if_pos hnil, if_neg (Nat.not_lt.mpr hv.small)]
    obtain ⟨h1, tab1, hrun, _, hl2, _, _, hframe, hdead⟩ :=
      destroy_loop_valid pv.last_index pv.page_capacity pv.page_capacity 0 h pv.page_array
        (by rw [hv.len]; omega) hv.live hv.inj
    rw [hrun]
    refine ⟨h1, rfl, hl2, ?_, ?_⟩
    · intro a ha
      exact hframe a (fun p _ _ => ha p)
    · intro p a hs
      have hp : p < pv.page_capacity := by
        rw [← hv.len]
        by_contra hc
        rw [List.getElem?_eq_none (by omega)] at hs
        cases hs
      exact hdead p a (Nat.zero_le _) (by omega) hs

/-- Reading an element whose page cell is the same in two heaps. -/
theorem load_congr_cell {T : Type} {h h1 : Heap T} (pv : paged_vector) (i : Nat)
    (hc : ∀ addr : Nat, pv.page_array[i >>> bits]? = some (some addr) → h1[addr]? = h[addr]?) :
    load h1 pv i = load h pv i ∧ subscript h1 pv i = subscript h pv i := by
  cases hs : pv.page_array[i >>> bits]? with
  | none =>
    rw [load_of_no_slot (by intro a; rw [hs]; simp),
      load_of_no_slot (by intro a; rw [hs]; simp),
      subscript_of_no_slot (by intro a; rw [hs]; simp),
      subscript_of_no_slot (by intro a; rw [hs]; simp)]
    exact ⟨rfl, rfl⟩
  | some o =>
    cases o with
    | none =>
      rw [load_of_no_slot (by intro a; rw [hs]; simp),
        load_of_no_slot (by intro a; rw [hs]; simp),
        subscript_of_no_slot (by intro a; rw [hs]; simp),
        subscript_of_no_slot (by intro a; rw [hs]; simp)]
      exact ⟨rfl, rfl⟩
    | some a =>
      rw [load_of_slot hs, load_of_slot hs, subscript_of_slot hs, subscript_of_slot hs,
        Heap.read_congr (hc a hs)]
      exact ⟨rfl, rfl⟩

theorem int_max_le_max_size : int_max ≤ max_size := by decide

/-- The loop of `assign_elements` when the first `P` table slots of `this` hold different
allocated pages and `other` shares no page with `this`. -/
theorem assign_loop_spec {T : Type} {this other : paged_vector} (P : Nat)
    (hinj : ∀ p q a : Nat,
      this.page_array[p]? = some (some a) → this.page_array[q]? = some (some a) → p = q)
    (hsep : Apart other this) :
    ∀ (k i : Nat) (h : Heap T),
      (∀ p : Nat, p < P →
        ∃ a pg, this.page_array[p]? = some (some a) ∧ Heap.read h a = some pg) →
      i + k ≤ P * page_size →
      (∀ j : Nat, j < i + k → ∃ x, load h other j = some x) →
      ∃ h1, for_range (fun h1 i => (load h1 other i).bind fun x => store h1 this i x) h i k
          = some h1 ∧
        Kept this h h1 ∧
        (∀ j : Nat, i ≤ j → j < i + k → load h1 this j = load h other j) ∧
        (∀ j : Nat, j < i → load h1 this j = load h this j) := by
  intro k
  induction k with
  | zero =>
    intro i h _ _ _
    exact ⟨h, rfl, Kept.kept_refl this h, fun j h1 h2 => absurd h2 (by omega), fun _ _ => rfl⟩
  | succ k ih =>
    intro i h hlive hle hread
    obtain ⟨x, hx⟩ := hread i (by omega)
    obtain ⟨h1, hst, hk1, hl1, ho1⟩ := store_read P hlive hinj (show i < P * page_size by omega) x
    have hother : ∀ j : Nat, load h1 other j = load h other j := by
      intro j
      exact (load_congr_cell other j
        (fun addr hs => hk1.frame addr (fun q => hsep _ q addr hs))).1
    have hlive1 : ∀ p : Nat, p < P →
        ∃ a pg, this.page_array[p]? = some (some a) ∧ Heap.read h1 a = some pg := by
      intro p hp
      obtain ⟨a, pg, hs, hr⟩ := hlive p hp
      obtain ⟨pg1, hr1⟩ := Heap.read_isSome_of_eq (hk1.live a) hr
      exact ⟨a, pg1, hs, hr1⟩
    obtain ⟨h2, hrun, hk2, hl2, ho2⟩ := ih (i + 1) h1 hlive1 (by omega)
      (by
        intro j hj
        rw [hother j]
        exact hread j (by omega))
    refine ⟨h2, ?_, hk1.kept_trans hk2, ?_, ?_⟩
    · rw [for_range_succ, hx, Option.some_bind, hst, Option.some_bind]; exact hrun
    · intro j hj1 hj2
      by_cases hji : j = i
      · subst hji
        rw [ho2 j (by omega), hl1, hx]
      · rw [hl2 j (by omega) (by omega), hother j]
    · intro j hj
      rw [ho2 j (by omega), ho1 j (by omega)]

/-- Source `assign_elements` (the element loop of the copy operations), as
`assign_loop_spec`, for a source of at most `int_max` elements. -/
theorem assign_elements_spec {T : Type} {h : Heap T} {this other : paged_vector} (P : Nat)
    (hinj : ∀ p q a : Nat,
      this.page_array[p]? = some (some a) → this.page_array[q]? = some (some a) → p = q)
    (hsep : Apart other this)
    (hlive : ∀ p : Nat, p < P →
      ∃ a pg, this.page_array[p]? = some (some a) ∧ Heap.read h a = some pg)
    (hle : other.last_index ≤ P * page_size) (hint : other.last_index ≤ int_max)
    (hread : ∀ j : Nat, j < other.last_index → ∃ x, load h other j = some x) :
    ∃ h1, assign_elements h this other = some h1 ∧ Kept this h h1 ∧
      (∀ j : Nat, j < other.last_index → load h1 this j = load h other j) := by
  obtain ⟨h1, hrun, hk, hl, _⟩ := assign_loop_spec P hinj hsep other.last_index 0 h hlive
    (by omega) (by intro j hj; exact hread j (by omega))
  refine ⟨h1, ?_, hk, fun j hj => hl j (Nat.zero_le _) (by omega)⟩
  unfold assign_elements
  rw [if_neg (Nat.not_lt.mpr hint)]
  exact hrun

/-- Source `resize(n)` on a full target `b`, as the first step of a copy from a source `a`
that shares no page with `b`: the result has size `n`, its slots below `ceil(n / 64)` hold
different allocated pages that are no pages of `a`, and no page cell of `a` has changed. -/
theorem resize_for_copy {T : Type} [Inhabited T] {h : Heap T} {a b : paged_vector}
    (hb : Full h b) (ha : Valid h a) (hsep : Apart a b) (n : Nat) (hn : n ≤ max_size)
    (v : T) :
    ∃ h1 b1, resize h b n v = some (h1, b1) ∧ b1.last_index = n ∧
      (∀ p q x : Nat,
        b1.page_array[p]? = some (some x) → b1.page_array[q]? = some (some x) → p = q) ∧
      Apart a b1 ∧
      (∀ p : Nat, p < (n + 63) / 64 →
        ∃ x pg, b1.page_array[p]? = some (some x) ∧ Heap.read h1 x = some pg) ∧
      (∀ p addr : Nat, a.page_array[p]? = some (some addr) → h1[addr]? = h[addr]?) := by
  by_cases hgrow : b.last_index ≤ n
  · obtain ⟨h1, b1, hr, hf1, hg, hli, hc, _, _, _⟩ := resize_grow_spec hb hgrow hn v
    have hapart : Apart a b1 := by
      intro p q addr hp hq
      obtain ⟨pg, hpg⟩ := ha.live p addr hp
      have hlt := Heap.read_lt hpg
      exact hg.not_entry hlt (fun q1 => hsep p q1 addr hp) q hq
    refine ⟨h1, b1, hr, hli, hf1.inj, hapart, ?_, ?_⟩
    · intro p hp
      apply hf1.live
      rw [hc]
      have := Nat.le_max_right b.page_capacity ((n + 63) / 64)
      omega
    · intro p addr hp
      obtain ⟨pg, hpg⟩ := ha.live p addr hp
      exact hg.frame addr (Heap.read_lt hpg) (fun q1 => hsep p q1 addr hp)
  · have hlt : n < b.last_index := by omega
    obtain ⟨h1, tab1, hr, _, _, hout, hin, hframe, _⟩ := resize_shrink_spec hb hlt v
    have hsub : ∀ q x : Nat, tab1[q]? = some (some x) → b.page_array[q]? = some (some x) := by
      intro q x hq
      by_cases hq1 : q < (n + 63) / 64 ∨ b.last_index / 64 ≤ q
      · rw [← hout q hq1]; exact hq
      · rw [hin q (by omega) (by omega)] at hq
        cases hq
    refine ⟨h1, _, hr, rfl, ?_, ?_, ?_, ?_⟩
    · intro p q x hp hq
      exact hb.inj p q x (hsub p x hp) (hsub q x hq)
    · intro p q addr hp hq
      exact hsep p q addr hp (hsub q addr hq)
    · intro p hp
      have hcap := hb.cap
      rw [page_size_eq] at hcap
      obtain ⟨x, pg, hs, hrd⟩ := hb.live p (by omega)
      refine ⟨x, pg, ?_, ?_⟩
      · simp only
        rw [hout p (Or.inl hp)]; exact hs
      · rw [Heap.read_congr (hframe x (by
          intro q hq1 _ hq
          have := hb.inj _ _ _ hs hq
          omega))]
        exact hrd
    · intro p addr hp
      exact hframe addr (fun q _ _ hq => hsep p q addr hp hq)

theorem sample_other_built : GrowBuilt sample_heap2 sample_other :=
  @GrowBuilt.step Int _ sample_heap sample_heap2 paged_vector.empty sample_other
    (GrowOp.push_back 5) (GrowBuilt.empty sample_heap) (by decide) rfl

theorem sample_apart : Apart sample_vec sample_other := by
  intro p q addr hp hq
  simp only [sample_vec, sample_other] at hp hq
  cases p with
  | zero =>
    cases q with
    | zero => simp at hp hq; omega
    | succ q => simp at hq
  | succ p => simp at hp

theorem sample_vec_valid : Valid sample_heap2 sample_vec where
  len := rfl
  live := by
    intro p a hp
    simp only [sample_vec] at hp
    cases p with
    | zero =>
      simp at hp
      subst hp
      exact ⟨_, rfl⟩
    | succ p => simp at hp
  inj := by
    intro p q a hp hq
    simp only [sample_vec] at hp hq
    cases p with
    | zero =>
      cases q with
      | zero => rfl
      | succ q => simp at hq
    | succ p => simp at hp
  small := by decide

theorem sample_vec_readable :
    ∀ i : Nat, i < size sample_vec → ∃ x, load sample_heap2 sample_vec i = some x := by
  intro i hi
  have hcases : i = 0 ∨ i = 1 := by
    simp only [size, sample_vec] at hi
    omega
  rcases hcases with rfl | rfl
  · exact ⟨4, by decide⟩
  · exact ⟨6, by decide⟩

/-- Source `pop_back()` on a non-empty full container: only `last_index` changes. -/
theorem pop_back_spec {T : Type} [Inhabited T] {h : Heap T} {pv : paged_vector}
    (hf : Full h pv) (hpos : 0 < pv.last_index) :
    pop_back h pv = some (h, ⟨pv.last_index - 1, pv.page_array, pv.page_capacity⟩) := by
  have hcap := hf.cap
  have hsm := hf.small
  have hmod : (pv.last_index + size_mod - 1) % size_mod = pv.last_index - 1 := by
    have h1 : pv.last_index + size_mod - 1 = (pv.last_index - 1) + size_mod := by omega
    rw [h1, Nat.add_mod_right, Nat.mod_eq_of_lt (by
      simp only [int_max, page_size, size_mod, bits] at *
      omega)]
  obtain ⟨h1, tab1, hr, hl1, hl2, hout, _, hframe, _⟩ :=
    resize_shrink_spec hf (show pv.last_index - 1 < pv.last_index by omega) (default : T)
  have htab : tab1 = pv.page_array := by
    apply List.ext_getElem?
    intro p
    apply hout
    omega
  have hheap : h1 = h := by
    apply List.ext_getElem?
    intro a
    apply hframe
    intro p hp1 hp2
    omega
  unfold pop_back resize_default
  rw [hmod, hr, htab, hheap]

/-- The invariant of push and pop sequences: the container is full and its page count is
the largest `ceil(s / 64)` reached. -/
theorem StackBuilt.inv {T : Type} [Inhabited T] {h : Heap T} {pv : paged_vector} {m : Nat}
    (hb : StackBuilt h pv m) :
    Full h pv ∧ pv.page_capacity = m ∧ (pv.last_index + 63) / 64 ≤ m := by
  induction hb with
  | empty h => exact ⟨Full.full_empty h, rfl, by decide⟩
  | @step h h1 pv pv1 m op _ hp hr ih =>
    obtain ⟨hf, hc, hle⟩ := ih
    have hps : (page_size : Nat) - 1 = 63 := by decide
    rw [hps, page_size_eq]
    cases op with
    | push_back v =>
      obtain ⟨h2, pv2, hr2, hf2, _, hli, hc2, _⟩ := push_back_spec hf hp v
      simp only [StackOp.run] at hr
      rw [hr] at hr2
      cases hr2
      refine ⟨hf2, ?_, Nat.le_max_right _ _⟩
      rw [hc2, hc, hli]
    | pop_back =>
      have hr2 := pop_back_spec hf hp
      simp only [StackOp.run] at hr
      rw [hr] at hr2
      cases hr2
      have hcap := hf.cap
      refine ⟨hf.last_index _ (by omega), ?_, Nat.le_max_right _ _⟩
      simp only
      rw [hc]
      have : (pv.last_index - 1 + 63) / 64 ≤ m := by omega
      omega

theorem sample_stack : StackBuilt sample_heap sample_vec 1 :=
  @StackBuilt.step Int _ sample_heap1 sample_heap sample_vec1 sample_vec 1
    (StackOp.push_back 6)
    (@StackBuilt.step Int _ [] sample_heap1 paged_vector.empty sample_vec1 0
      (StackOp.push_back 4) (StackBuilt.empty []) (by decide) rfl)
    (by decide) rfl

/-- C1: pushing the elements of a list `xs` in order with `push_back` onto a
default-constructed `paged_vector` succeeds and gives a container with
`size() == length(xs)` whose `operator[](i)` reads `xs[i]` for every `i < length(xs)`:
read in index order, the container is the list of pushed values.  The list has at most
`max_size` elements, the sizes whose page count an `int` holds. -/
theorem push_back_all_reads_back {T : Type} [Inhabited T] (h : Heap T) (xs : List T)
    (hx : xs.length ≤ max_size) :
    ∃ h1 pv1, push_all h paged_vector.empty xs = some (h1, pv1) ∧ size pv1 = xs.length ∧
      (∀ (i : Nat) (hi : i < xs.length), load h1 pv1 i = some xs[i]) ∧
      contents h1 pv1 = xs.map some := by
  obtain ⟨h1, pv1, hr, _, hli, _, hnew⟩ :=
    push_all_spec xs h paged_vector.empty (Full.full_empty h)
      (by simpa [paged_vector.empty] using hx)
  have hsize : size pv1 = xs.length := by
    simpa [size, paged_vector.empty] using hli
  have hread : ∀ (i : Nat) (hi : i < xs.length), load h1 pv1 i = some xs[i] := by
    intro i hi
    have := hnew i hi
    simpa [paged_vector.empty] using this
  refine ⟨h1, pv1, hr, hsize, hread, ?_⟩
  apply List.ext_getElem?
  intro i
  unfold contents
  rw [hsize]
  by_cases hi : i < xs.length
  · rw [List.getElem?_map, List.getElem?_map, List.getElem?_range hi,
      List.getElem?_eq_getElem hi]
    simp only [Option.map_some']
    rw [hread i hi]
  · rw [List.getElem?_eq_none (by simp; omega), List.getElem?_eq_none (by simp; omega)]

theorem push_back_all_reads_back_witness :
    3 ≤ max_size ∧
    ∃ h1 pv1, push_all ([] : Heap Int) paged_vector.empty [7, 8, 9] = some (h1, pv1) ∧
      size pv1 = 3 ∧
      (∀ (i : Nat) (hi : i < 3), load h1 pv1 i = some ([7, 8, 9] : List Int)[i]) ∧
      contents h1 pv1 = [some 7, some 8, some 9] :=
  ⟨by decide, push_back_all_reads_back ([] : Heap Int) [7, 8, 9] (by decide)⟩

set_option maxRecDepth 100000 in
/-- C2: the end-to-end scenario on the code.  After the three `push_back` calls `size()` is
3 and the elements are 1, 2, 3; after `pop_back()` `size()` is 2; after `resize(70)`
`size()` is 70 and the elements at `[3, 70)` are 0, but `capacity()` is 64, not 128,
while two pages are allocated. -/
theorem scenario_capacity_64 :
    scenario_pushed.map (fun s => (size s.2, (List.range 3).map (load s.1 s.2)))
      = some (3, [some 1, some 2, some 3]) ∧
    scenario_popped.map (fun s => size s.2) = some 2 ∧
    scenario_resized.map (fun s => (size s.2, capacity s.2, s.2.page_capacity))
      = some (70, 64, 2) ∧
    scenario_resized.map (fun s => (List.range' 3 67).map (load s.1 s.2))
      = some (List.replicate 67 (some 0)) := by
  decide

/-- C3: `resize(1)` on an empty `paged_vector<int>` leaves `size() == 1` and
`capacity() == 0`, so `capacity() >= n` fails. -/
theorem resize_one_capacity_zero :
    (resize_default ([] : Heap Int) paged_vector.empty 1).map
      (fun s => (size s.2, capacity s.2, decide (capacity s.2 ≥ 1)))
      = some (1, 0, false) := by
  decide

/-- C4: `reserve(1)` on an empty `paged_vector<int>` allocates one page
(`page_capacity == 1`, a table of one entry) and leaves `capacity() == 0`, not
`page_capacity * 64 == 64`. -/
theorem reserve_one_capacity_zero :
    (reserve ([] : Heap Int) paged_vector.empty 1).map
      (fun s => (capacity s.2, s.2.page_capacity, s.2.page_array, s.2.page_capacity * page_size))
      = some (0, 1, [some 0], 64) := by
  decide

set_option maxRecDepth 100000 in
/-- C7: from an empty `paged_vector<int>`, `resize(128)`, a write at index 100 and
`resize(64)` leave the table slot 1 null with `page_capacity` still 2; the following
`resize(128, 7)` allocates nothing and assigns through that null page pointer, which is
undefined. -/
theorem regrow_after_shrink_undefined :
    regrow_shrunk.map (fun s => s.2) = some ⟨64, [some 0, none], 2⟩ ∧
    regrow_shrunk.map (fun s => (store s.1 s.2 64 7).isNone) = some true ∧
    regrow_final.isNone = true := by
  decide

set_option maxRecDepth 100000 in
/-- C8: the public operations `resize(128)`, `resize(64)` on a default-constructed
`paged_vector<int>`, each within its precondition, reach a state with `page_capacity == 2`
whose table slot 1 is null, so that `operator[](64)` is undefined although
`64 < page_capacity * 64`. -/
theorem shrink_leaves_null_slot :
    (System.run [Op.construct, Op.resize 0 128 (0 : Int), Op.resize 0 64 0] ⟨[], []⟩).map
      (fun s => (s.objs, s.objs.map fun pv =>
        (load s.heap pv 64, decide (64 < pv.page_capacity * page_size))))
      = some ([⟨64, [some 0, none], 2⟩], [(none, true)]) := by
  decide

/-- C9: capacity invariant.  In every state reachable from the empty program through the
public operations called within their preconditions (`pop_back` only on a non-empty
container, sizes `n` with `n + 63` representable in `size_t`), every container has
`size() <= page_capacity * 64`. -/
theorem capacity_invariant {T : Type} [Inhabited T] {s : System T} (hr : Reachable s)
    (pv : paged_vector) (hpv : pv ∈ s.objs) : size pv ≤ pv.page_capacity * page_size :=
  (hr.sized pv hpv).1

theorem capacity_invariant_witness :
    sample_vec ∈ (⟨sample_heap, [sample_vec]⟩ : System Int).objs ∧
    size sample_vec ≤ sample_vec.page_capacity * page_size :=
  ⟨List.mem_singleton.mpr rfl,
    capacity_invariant sample_reachable sample_vec (List.mem_singleton.mpr rfl)⟩

/-- C12: write-then-read through `operator[]`.  In a container whose table slots below its
page count hold allocated pages, each slot a page of its own, for indices `i`, `j` below
`page_capacity * 64`: writing `v` at `i` is defined, reading `i` afterwards gives `v`, and
reading `j != i` gives the value it held before.  The mapping `i -> (i >> 6, i & 63)` is
`(i / 64, i % 64)` and is injective. -/
theorem write_then_read {T : Type} (h : Heap T) (pv : paged_vector)
    (hlive : ∀ p : Nat, p < pv.page_capacity →
      ∃ a pg, pv.page_array[p]? = some (some a) ∧ Heap.read h a = some pg)
    (hinj : ∀ p q a : Nat,
      pv.page_array[p]? = some (some a) → pv.page_array[q]? = some (some a) → p = q)
    (i j : Nat) (hi : i < pv.page_capacity * page_size)
    (hj : j < pv.page_capacity * page_size) (v : T) :
    ∃ h1, store h pv i v = some h1 ∧ load h1 pv i = some v ∧
      (j ≠ i → ∃ x, load h pv j = some x ∧ load h1 pv j = some x) ∧
      (i >>> bits = i / page_size ∧ i &&& mask = i % page_size) ∧
      ((i >>> bits, i &&& mask) = (j >>> bits, j &&& mask) → i = j) := by
  obtain ⟨h1, hst, _, hl, ho⟩ := store_read pv.page_capacity hlive hinj hi v
  refine ⟨h1, hst, hl, ?_, ⟨?_, ?_⟩, ?_⟩
  · intro hne
    obtain ⟨x, hx⟩ := load_some_of_live pv.page_capacity hlive hj
    exact ⟨x, hx, by rw [ho j hne]; exact hx⟩
  · rw [shr_bits, page_size_eq]
  · rw [and_mask, page_size_eq]
  · intro he
    have h1 := congrArg Prod.fst he
    have h2 := congrArg Prod.snd he
    simp only [shr_bits, and_mask] at h1 h2
    have := Nat.div_add_mod i 64
    have := Nat.div_add_mod j 64
    omega

theorem write_then_read_witness :
    (0 : Nat) < sample_vec.page_capacity * page_size ∧
    (1 : Nat) < sample_vec.page_capacity * page_size ∧
    ∃ h1, store sample_heap sample_vec 0 9 = some h1 ∧ load h1 sample_vec 0 = some 9 ∧
      ((1 : Nat) ≠ 0 → ∃ x, load sample_heap sample_vec 1 = some x ∧
        load h1 sample_vec 1 = some x) ∧
      ((0 : Nat) >>> bits = 0 / page_size ∧ (0 : Nat) &&& mask = 0 % page_size) ∧
      (((0 : Nat) >>> bits, (0 : Nat) &&& mask) = ((1 : Nat) >>> bits, (1 : Nat) &&& mask) →
        (0 : Nat) = 1) :=
  ⟨by decide, by decide,
    write_then_read sample_heap sample_vec sample_built.full.live sample_built.full.inj 0 1
      (by decide) (by decide) 9⟩

/-- Deep copy of a source of at most `int_max` elements.  Let `b` be a target whose table
is full of pages of its own (a freshly constructed container, or one built from empty with
`push_back`, `reserve` and non-shrinking `resize`), and `a` a well-formed source whose
elements below `size()` exist and which shares no page with `b`.  Copy assignment `b = a`,
and with `b` fresh the copy constructor, succeeds; afterwards `b.size() == a.size()`,
`b[i] == a[i]` for every `i < a.size()`, no page cell of `a` has changed, and a later write
to `b[i]` changes no `a[j]`. -/
theorem copy_is_deep {T : Type} [Inhabited T] {h : Heap T} {a b : paged_vector}
    (hb : Full h b) (ha : Valid h a)
    (hread : ∀ i : Nat, i < size a → ∃ x, load h a i = some x)
    (hsep : Apart a b) (hint : size a ≤ int_max) :
    ∃ h1 b1, copy_assign h b a = some (h1, b1) ∧ size b1 = size a ∧
      (∀ i : Nat, i < size a →
        ∃ x, load h a i = some x ∧ load h1 b1 i = some x ∧ load h1 a i = some x) ∧
      (∀ p addr : Nat, a.page_array[p]? = some (some addr) → h1[addr]? = h[addr]?) ∧
      (∀ (i : Nat) (v : T), i < size a →
        ∃ h2, store h1 b1 i v = some h2 ∧ load h2 b1 i = some v ∧
          ∀ j : Nat, load h2 a j = load h1 a j) ∧
      copy_construct h a = copy_assign h paged_vector.empty a := by
  unfold size at hread hint ⊢
  have hn : a.last_index ≤ max_size := Nat.le_trans hint int_max_le_max_size
  obtain ⟨h1, b1, hr, hli, hinj1, hapart, hlive1, hcell1⟩ :=
    resize_for_copy hb ha hsep a.last_index hn (default : T)
  have hle : a.last_index ≤ (a.last_index + 63) / 64 * page_size := by
    rw [page_size_eq]; omega
  have hread1 : ∀ j : Nat, j < a.last_index → ∃ x, load h1 a j = some x := by
    intro j hj
    obtain ⟨x, hx⟩ := hread j hj
    exact ⟨x, by rw [(load_congr_cell a j (fun addr hs => hcell1 _ addr hs)).1]; exact hx⟩
  obtain ⟨h2, hae, hk, hl⟩ :=
    assign_elements_spec ((a.last_index + 63) / 64) hinj1 hapart hlive1 hle hint hread1
  have hcell2 : ∀ p addr : Nat, a.page_array[p]? = some (some addr) → h2[addr]? = h[addr]? := by
    intro p addr hp
    rw [hk.frame addr (fun q => hapart p q addr hp)]
    exact hcell1 p addr hp
  have hlive2 : ∀ p : Nat, p < (a.last_index + 63) / 64 →
      ∃ x pg, b1.page_array[p]? = some (some x) ∧ Heap.read h2 x = some pg := by
    intro p hp
    obtain ⟨x, pg, hs, hrd⟩ := hlive1 p hp
    obtain ⟨pg1, hr1⟩ := Heap.read_isSome_of_eq (hk.live x) hrd
    exact ⟨x, pg1, hs, hr1⟩
  refine ⟨h2, b1, ?_, hli, ?_, hcell2, ?_, rfl⟩
  · unfold copy_assign resize_default
    rw [hr]
    simp only [hae, Option.map_some']
  · intro i hi
    obtain ⟨x, hx⟩ := hread i hi
    have hax : load h2 a i = some x := by
      rw [(load_congr_cell a i (fun addr hs => hcell2 _ addr hs)).1]; exact hx
    refine ⟨x, hx, ?_, hax⟩
    rw [hl i hi]
    obtain ⟨y, hy⟩ := hread1 i hi
    rw [(load_congr_cell a i (fun addr hs => hcell1 _ addr hs)).1]
    exact hx
  · intro i v hi
    obtain ⟨h3, hst, hk3, hl3, _⟩ :=
      store_read ((a.last_index + 63) / 64) hlive2 hinj1
        (show i < (a.last_index + 63) / 64 * page_size by omega) v
    refine ⟨h3, hst, hl3, ?_⟩
    intro j
    exact (load_congr_cell a j
      (fun addr hs => hk3.frame addr (fun q => hapart _ q addr hs))).1

theorem copy_is_deep_witness :
    Apart sample_vec sample_other ∧ size sample_vec ≤ int_max ∧
    ∃ h1 b1, copy_assign sample_heap2 sample_other sample_vec = some (h1, b1) ∧
      size b1 = size sample_vec ∧
      (∀ i : Nat, i < size sample_vec →
        ∃ x, load sample_heap2 sample_vec i = some x ∧ load h1 b1 i = some x ∧
          load h1 sample_vec i = some x) ∧
      (∀ p addr : Nat, sample_vec.page_array[p]? = some (some addr) →
        h1[addr]? = sample_heap2[addr]?) ∧
      (∀ (i : Nat) (v : Int), i < size sample_vec →
        ∃ h2, store h1 b1 i v = some h2 ∧ load h2 b1 i = some v ∧
          ∀ j : Nat, load h2 sample_vec j = load h1 sample_vec j) ∧
      copy_construct sample_heap2 sample_vec
        = copy_assign sample_heap2 paged_vector.empty sample_vec :=
  ⟨sample_apart, by decide,
    copy_is_deep sample_other_built.full sample_vec_valid sample_vec_readable sample_apart
      (by decide)⟩

/-- C13: the copy of a source of `2 ^ 31 + 1` elements.  The container `a` left by
`resize(2 ^ 31 + 1, 7)` on an empty `paged_vector<int>` is built by a growth operation and
holds `2 ^ 31 + 1` readable elements, each 7.  The copy constructor called with `a`, and
copy assignment of `a` to any target, are undefined: the counter `int i` of the copy loop
is compared with the `size_t` size and incremented past `int_max`. -/
theorem copy_large_source_undefined :
    ∃ (h : Heap Int) (a : paged_vector),
      resize ([] : Heap Int) paged_vector.empty (2 ^ 31 + 1) 7 = some (h, a) ∧
      GrowBuilt h a ∧ size a = 2 ^ 31 + 1 ∧
      (∀ i : Nat, i < size a → load h a i = some 7) ∧
      copy_construct h a = none ∧
      ∀ b : paged_vector, copy_assign h b a = none := by
  have hm : (2 ^ 31 + 1 : Nat) ≤ max_size := by decide
  obtain ⟨h, a, hr, _, _, hli, _, _, hnew, _⟩ :=
    @resize_grow_spec Int _ [] paged_vector.empty (Full.full_empty []) (2 ^ 31 + 1)
      (Nat.zero_le _) hm 7
  have hbig : a.last_index > int_max := by rw [hli]; decide
  have hall : ∀ b : paged_vector, copy_assign h b a = none := by
    intro b
    unfold copy_assign
    cases hrb : resize_default h b a.last_index with
    | none => rfl
    | some s =>
      obtain ⟨h1, b1⟩ := s
      simp only [assign_elements, if_pos hbig, Option.map_none']
  refine ⟨h, a, hr, ?_, hli, ?_, hall _, hall⟩
  · exact GrowBuilt.step (GrowOp.resize (2 ^ 31 + 1) 7) (GrowBuilt.empty [])
      ⟨Nat.zero_le _, hm⟩ hr
  · intro i hi
    unfold size at hi
    rw [hli] at hi
    exact hnew i (Nat.zero_le _) hi

/-- C14: move.  For two containers `a`, `b` that share no page, `b` well formed:
`b = move(a)` succeeds, and so does move-constructing `b` from `a`, which changes no heap
cell; afterwards `b` has the size `a` had, every index reads in `b` what it read in `a`
before, at the same storage location, and `a` is as a default-constructed container
(`size() == 0`, no page table, `page_capacity == 0`).  The table of `b` has at most
`int_max` entries, the counts the `int` counter of `clear()` holds. -/
theorem move_transfers {T : Type} {h : Heap T} {a b : paged_vector} (hb : Valid h b)
    (hsep : Apart a b) :
    ∃ h1 b1 a1, move_assign h b a = some (h1, b1, a1) ∧ move_construct a = (b1, a1) ∧
      size b1 = size a ∧
      (∀ i : Nat, load h1 b1 i = load h a i ∧ subscript h1 b1 i = subscript h a i) ∧
      (∀ i : Nat, load h b1 i = load h a i ∧ subscript h b1 i = subscript h a i) ∧
      a1 = paged_vector.empty ∧ size a1 = 0 ∧ a1.page_array = [] ∧ a1.page_capacity = 0 := by
  obtain ⟨h1, hr, _, hframe, _⟩ := clear_spec hb
  refine ⟨h1, ⟨a.last_index, a.page_array, a.page_capacity⟩, ⟨0, [], 0⟩, ?_, rfl, rfl, ?_,
    fun i => ⟨rfl, rfl⟩, rfl, rfl, rfl, rfl⟩
  · unfold move_assign
    rw [hr]
  · intro i
    exact load_congr_cell a i (fun addr hs => hframe addr (fun q => hsep _ q addr hs))

theorem move_transfers_witness :
    Apart sample_vec sample_other ∧
    ∃ h1 b1 a1, move_assign sample_heap2 sample_other sample_vec = some (h1, b1, a1) ∧
      move_construct sample_vec = (b1, a1) ∧ size b1 = size sample_vec ∧
      (∀ i : Nat, load h1 b1 i = load sample_heap2 sample_vec i ∧
        subscript h1 b1 i = subscript sample_heap2 sample_vec i) ∧
      (∀ i : Nat, load sample_heap2 b1 i = load sample_heap2 sample_vec i ∧
        subscript sample_heap2 b1 i = subscript sample_heap2 sample_vec i) ∧
      a1 = paged_vector.empty ∧ size a1 = 0 ∧ a1.page_array = [] ∧ a1.page_capacity = 0 :=
  ⟨sample_apart, move_transfers sample_other_built.full.valid sample_apart⟩

/-- C15: `clear()` on a well-formed container state, with any `last_index` and with null
or allocated table entries, succeeds and leaves the container as a default-constructed one
(`size() == 0`, `page_capacity == 0`, no page table); every page the table held is
released and no other heap cell changes.  The table has at most `int_max` entries, the
counts the `int` counter of the loop holds. -/
theorem clear_resets {T : Type} {h : Heap T} {pv : paged_vector} (hv : Valid h pv) :
    ∃ h1 pv1, clear h pv = some (h1, pv1) ∧ pv1 = paged_vector.empty ∧
      size pv1 = 0 ∧ pv1.page_capacity = 0 ∧ pv1.page_array = [] ∧
      (∀ p a : Nat, pv.page_array[p]? = some (some a) → Heap.read h1 a = none) ∧
      (∀ a : Nat, (∀ p : Nat, pv.page_array[p]? ≠ some (some a)) → h1[a]? = h[a]?) := by
  obtain ⟨h1, hr, _, hframe, hdead⟩ := clear_spec hv
  refine ⟨h1, _, hr, rfl, rfl, rfl, rfl, ?_, hframe⟩
  intro p a hs
  unfold Heap.read
  rw [hdead p a hs]

theorem clear_resets_witness :
    ∃ h1 pv1, clear sample_heap sample_vec = some (h1, pv1) ∧ pv1 = paged_vector.empty ∧
      size pv1 = 0 ∧ pv1.page_capacity = 0 ∧ pv1.page_array = [] ∧
      (∀ p a : Nat, sample_vec.page_array[p]? = some (some a) → Heap.read h1 a = none) ∧
      (∀ a : Nat, (∀ p : Nat, sample_vec.page_array[p]? ≠ some (some a)) →
        h1[a]? = sample_heap[a]?) :=
  clear_resets sample_built.full.valid

/-- C16: iterator/index agreement.  For a container with `size()` representable as `int`,
the loop `for (it = begin(); it != end(); ++it)` runs its body exactly `size()` times, the
`k`-th time at the iterator of index `k`, and dereferencing that iterator gives the same
element as `operator[](k)`. -/
theorem begin_to_end_visits_all {T : Type} (h : Heap T) (pv : paged_vector) (o : Nat)
    (hs : size pv ≤ int_max) :
    (∀ fuel : Nat, size pv < fuel →
      traverse (pv.end_ o) fuel (pv.begin o)
        = some ((List.range (size pv)).map fun (k : Nat) => (⟨(k : Int), o⟩ : iterator))) ∧
    ((List.range (size pv)).map fun (k : Nat) => (⟨(k : Int), o⟩ : iterator)).length = size pv ∧
    (∀ k : Nat, k < size pv →
      iterator.deref h pv ⟨(k : Int), o⟩ = subscript h pv k) := by
  unfold size at hs ⊢
  refine ⟨?_, by rw [List.length_map, List.length_range], ?_⟩
  · intro fuel hf
    have := traverse_from o pv.last_index hs pv.last_index 0 fuel (by omega) hf
    unfold paged_vector.end_ paged_vector.begin
    rw [to_int_of_le hs]
    simpa [List.range_eq_range'] using this
  · intro k hk
    unfold iterator.deref
    rw [to_size_of_nat k (by simp only [int_max, size_mod] at hs ⊢; omega)]

theorem begin_to_end_visits_all_witness :
    size sample_vec ≤ int_max ∧
    (∀ fuel : Nat, size sample_vec < fuel →
      traverse (sample_vec.end_ 0) fuel (sample_vec.begin 0)
        = some ((List.range (size sample_vec)).map fun (k : Nat) => (⟨(k : Int), 0⟩ : iterator))) ∧
    ((List.range (size sample_vec)).map fun (k : Nat) => (⟨(k : Int), 0⟩ : iterator)).length
      = size sample_vec ∧
    (∀ k : Nat, k < size sample_vec →
      iterator.deref sample_heap sample_vec ⟨(k : Int), 0⟩
        = subscript sample_heap sample_vec k) :=
  ⟨by decide, begin_to_end_visits_all sample_heap sample_vec 0 (by decide)⟩

/-- C17: on the two-element container, `begin()[1]` is the storage location of element 0
(value 4), not that of element 1 (value 6) that `*(begin() + 1)` gives: `operator[]` of the
iterator computes `_idx + value` and then indexes with `_idx`. -/
theorem iterator_index_ignores_offset :
    iterator.index sample_heap sample_vec (sample_vec.begin 0) 1 = some (0, offset 0) ∧
    ((sample_vec.begin 0).add 1).map (iterator.deref sample_heap sample_vec)
      = some (some (0, offset 1)) ∧
    iterator.index sample_heap sample_vec (sample_vec.begin 0) 1
      = iterator.deref sample_heap sample_vec (sample_vec.begin 0) ∧
    load sample_heap sample_vec 0 = some 4 ∧ load sample_heap sample_vec 1 = some 6 := by
  decide

set_option maxRecDepth 100000 in
/-- C18: `resize(70)` then `resize(3)` on an empty `paged_vector<int>` leaves
`page_capacity == 2`, not `ceil(3 / 64) == 1`, and the page of slot 1 is still allocated:
the shrink destroys only the slots from `ceil(3 / 64)` up to `last_index >> bits`, here
none. -/
theorem shrink_keeps_trailing_page :
    shrunk_70_3.map (fun s => (s.2, (Heap.read s.1 1).isSome, page_divide_ceil 3))
      = some (⟨3, [some 0, some 1], 2⟩, true, 1) := by
  decide

/-- C19: iterator offset arithmetic agrees with integer arithmetic on the index.  For an
iterator `it` and an `int` `n`, with `_idx + n` representable as `int`: `it + n` and
`it += n` are defined, `(it + n) - it == n`, `(it + n) - n == it`, and `it += n` followed by
`it -= n` restores `it`.  With `_idx + 1` representable, `++` followed by `--` restores `it`
and `it++` returns an iterator equal to the old `it` and advances `it` by one; with
`_idx - 1` representable, likewise for `--`, `++` and `it--`. -/
theorem iterator_arithmetic (it : iterator) (n : Int)
    (hi : int_min ≤ it.idx ∧ it.idx ≤ (int_max : Int))
    (hn : int_min ≤ n ∧ n ≤ (int_max : Int)) :
    (int_min ≤ it.idx + n ∧ it.idx + n ≤ (int_max : Int) →
      it.add n = some ⟨it.idx + n, it.owner⟩ ∧
      it.add_assign n = some ⟨it.idx + n, it.owner⟩ ∧
      (it.add n).bind (fun it1 => it1.diff it) = some n ∧
      (it.add n).bind (fun it1 => it1.sub n) = some it ∧
      ((it.add n).bind fun it1 => it1.sub n).map (fun it2 => it2.eq it) = some true ∧
      (it.add_assign n).bind (fun it1 => it1.sub_assign n) = some it) ∧
    (it.idx + 1 ≤ (int_max : Int) →
      it.pre_inc = some ⟨it.idx + 1, it.owner⟩ ∧
      it.pre_inc.bind (fun it1 => it1.pre_dec) = some it ∧
      it.post_inc = some (it, ⟨it.idx + 1, it.owner⟩) ∧
      it.post_inc.map (fun r => r.1.eq it) = some true ∧
      it.post_inc.bind (fun r => r.2.diff it) = some 1) ∧
    (int_min ≤ it.idx - 1 →
      it.pre_dec = some ⟨it.idx - 1, it.owner⟩ ∧
      it.pre_dec.bind (fun it1 => it1.pre_inc) = some it ∧
      it.post_dec = some (it, ⟨it.idx - 1, it.owner⟩) ∧
      it.post_dec.map (fun r => r.1.eq it) = some true ∧
      it.post_dec.bind (fun r => it.diff r.2) = some 1) := by
  obtain ⟨idx, owner⟩ := it
  simp only at hi ⊢
  have h1 : as_int ((1 : Int)) = some 1 := by decide
  have hx : as_int idx = some idx := as_int_of_range hi.1 hi.2
  have hy : as_int n = some n := as_int_of_range hn.1 hn.2
  refine ⟨?_, ?_, ?_⟩
  · intro hr
    have ha : as_int (idx + n) = some (idx + n) := as_int_of_range hr.1 hr.2
    have hb : as_int (idx + n - idx) = some n := by
      rw [show idx + n - idx = n by omega]; exact as_int_of_range hn.1 hn.2
    have hc : as_int (idx + n - n) = some idx := by
      rw [show idx + n - n = idx by omega]; exact as_int_of_range hi.1 hi.2
    simp [iterator.add, iterator.add_assign, iterator.sub, iterator.sub_assign,
      iterator.diff, iterator.eq, ha, hb, hc, hx, hy]
  · intro hr
    have ha : as_int (idx + 1) = some (idx + 1) :=
      as_int_of_range (by have := hi.1; omega) hr
    have hc : as_int (idx + 1 - 1) = some idx := by
      rw [show idx + 1 - 1 = idx by omega]; exact as_int_of_range hi.1 hi.2
    have hd : as_int (idx + 1 - idx) = some 1 := by
      rw [show idx + 1 - idx = 1 by omega]; exact h1
    simp [iterator.pre_inc, iterator.pre_dec, iterator.post_inc, iterator.diff,
      iterator.eq, ha, hc, hd, hx, h1]
  · intro hr
    have ha : as_int (idx - 1) = some (idx - 1) :=
      as_int_of_range hr (by have := hi.2; omega)
    have hc : as_int (idx - 1 + 1) = some idx := by
      rw [show idx - 1 + 1 = idx by omega]; exact as_int_of_range hi.1 hi.2
    have hd : as_int (idx - (idx - 1)) = some 1 := by
      rw [show idx - (idx - 1) = 1 by omega]; exact h1
    simp [iterator.pre_inc, iterator.pre_dec, iterator.post_dec, iterator.diff,
      iterator.eq, ha, hc, hd, hx, h1]

theorem iterator_arithmetic_witness :
    (int_min ≤ (5 : Int) ∧ (5 : Int) ≤ (int_max : Int)) ∧
    (int_min ≤ (-3 : Int) ∧ (-3 : Int) ≤ (int_max : Int)) ∧
    (((⟨5, 0⟩ : iterator).add (-3)).bind (fun it1 => it1.diff ⟨5, 0⟩) = some (-3) ∧
      ((⟨5, 0⟩ : iterator).add (-3)).bind (fun it1 => it1.sub (-3)) = some ⟨5, 0⟩) :=
  ⟨by decide, by decide,
    ⟨((iterator_arithmetic ⟨5, 0⟩ (-3) (by decide) (by decide)).1 (by decide)).2.2.1,
     ((iterator_arithmetic ⟨5, 0⟩ (-3) (by decide) (by decide)).1 (by decide)).2.2.2.1⟩⟩

/-- C20: push and pop sequences.  In every state reached from the empty container by
`push_back` and `pop_back` calls (`pop_back` only when `size() > 0`, sizes at most
`max_size`): every table slot below `page_capacity` holds an allocated page, and
`page_capacity` is the largest `ceil(s / 64)` over the sizes `s` reached so far; the next
call is defined and releases no page; and `push_back(v)` followed by `pop_back()` restores
`size()` and every element below it. -/
theorem push_pop_keeps_pages {T : Type} [Inhabited T] {h : Heap T} {pv : paged_vector}
    {m : Nat} (hb : StackBuilt h pv m) :
    (∀ p : Nat, p < pv.page_capacity →
      ∃ a pg, pv.page_array[p]? = some (some a) ∧ Heap.read h a = some pg) ∧
    pv.page_capacity = m ∧
    (∀ op : StackOp T, op.pre pv →
      ∃ h1 pv1, op.run h pv = some (h1, pv1) ∧
        ∀ a : Nat, (Heap.read h a).isSome → (Heap.read h1 a).isSome) ∧
    (∀ v : T, pv.last_index + 1 ≤ max_size →
      ∃ h1 pv1 h2 pv2, push_back h pv v = some (h1, pv1) ∧
        pop_back h1 pv1 = some (h2, pv2) ∧ size pv2 = size pv ∧
        ∀ i : Nat, i < size pv → ∃ x, load h pv i = some x ∧ load h2 pv2 i = some x) := by
  obtain ⟨hf, hc, _⟩ := hb.inv
  refine ⟨hf.live, hc, ?_, ?_⟩
  · intro op hp
    cases op with
    | push_back v =>
      obtain ⟨h1, pv1, hr, _, hg, _⟩ := push_back_spec hf hp v
      exact ⟨h1, pv1, hr, hg.live⟩
    | pop_back =>
      exact ⟨h, _, pop_back_spec hf hp, fun _ ha => ha⟩
  · intro v hm
    obtain ⟨h1, pv1, hr, hf1, _, hli, _, hold, _, _⟩ := push_back_spec hf hm v
    have hpop := pop_back_spec hf1 (by omega)
    refine ⟨h1, pv1, h1, _, hr, hpop, ?_, ?_⟩
    · simp only [size]
      omega
    · intro i hi
      unfold size at hi
      have hcap := hf.cap
      obtain ⟨x, _, hx, _⟩ := hf.load_some (show i < pv.page_capacity * page_size by omega)
      refine ⟨x, hx, ?_⟩
      rw [load_last_index, hold i hi]
      exact hx

theorem push_pop_keeps_pages_witness :
    (∀ p : Nat, p < sample_vec.page_capacity →
      ∃ a pg, sample_vec.page_array[p]? = some (some a) ∧ Heap.read sample_heap a = some pg) ∧
    sample_vec.page_capacity = 1 ∧
    (∀ op : StackOp Int, op.pre sample_vec →
      ∃ h1 pv1, op.run sample_heap sample_vec = some (h1, pv1) ∧
        ∀ a : Nat, (Heap.read sample_heap a).isSome → (Heap.read h1 a).isSome) ∧
    (∀ v : Int, sample_vec.last_index + 1 ≤ max_size →
      ∃ h1 pv1 h2 pv2, push_back sample_heap sample_vec v = some (h1, pv1) ∧
        pop_back h1 pv1 = some (h2, pv2) ∧ size pv2 = size sample_vec ∧
        ∀ i : Nat, i < size sample_vec →
          ∃ x, load sample_heap sample_vec i = some x ∧ load h2 pv2 i = some x) :=
  push_pop_keeps_pages sample_stack
end PagedVector
